import Mathlib

/-!
Shallow embedding of the core toggle engine of gouse (src/core.go).

Source text is modelled as a list of characters (runes).  The external
build capability (go build on a temp file, returning combined output) is
modelled as an oracle function: given the code text it returns
none when the build succeeds and some output when it fails.  The
cancellation context is modelled as a boolean that is true when the
token is already signalled at entry.  Go run-time panics (out-of-range
slice indexing) are modelled as a dedicated error value, distinct from
the error returns of the Go code.

The two regular expressions of core.go are embedded as concrete
matching functions with RE2 leftmost-first greedy semantics:
  fakeUsage           =  "; _ =" ++ .* ++ " /* TODO: gouse */"
  fakeUsageAfterGofmt =  \s* _ \s* "= " \w* \s* ++ " /* TODO: gouse */"
where .* matches any character except a newline, \s is [\t\n\f\r ] and
\w is [0-9A-Za-z_].
-/

/-- Constant " /* TODO: gouse */" from core.go (fakeUsageSuffix). -/
def fakeUsageSuffix : List Char := " /* TODO: gouse */".data

/-- Constant "; _ =" from core.go (fakeUsagePrefix). -/
def fakeUsagePrefix : List Char := "; _ =".data

/-- Constant "// " from core.go (commentPrefix). -/
def commentPrefix : List Char := "// ".data

/-- Constant "no required module provides package" from core.go. -/
def noProviderErrorRegexpSuffix : List Char :=
  "no required module provides package".data

/-- Constant "declared and not used:" from core.go. -/
def notUsedErrorRegexpSuffix : List Char := "declared and not used:".data

/-- Boolean test that the first list is a prefix of the second
(the literal-matching step of the embedded regular expressions). -/
def isPre : List Char → List Char → Bool
  | [], _ => true
  | _ :: _, [] => false
  | a :: as, b :: bs => a = b && isPre as bs

/-- Fuelled worker for splitOnSeq; the fuel only has to dominate the
length of the list being split, one unit per character consumed. -/
def splitSeqGo (sep : List Char) : Nat → List Char → List (List Char)
  | _, [] => [[]]
  | 0, l => [l]
  | fuel + 1, c :: cs =>
    if isPre sep (c :: cs) then
      [] :: splitSeqGo sep fuel ((c :: cs).drop sep.length)
    else
      (splitSeqGo sep fuel cs).modifyHead (c :: ·)

/-- Model of strings.Split / bytes.Split with a non-empty separator:
the list is cut at each leftmost non-overlapping occurrence of sep. -/
def splitOnSeq (sep l : List Char) : List (List Char) :=
  splitSeqGo sep l.length l

/-- Model of bytes.Join / strings.Join. -/
def joinWith (sep : List Char) : List (List Char) → List Char
  | [] => []
  | [l] => l
  | l :: ls => l ++ sep ++ joinWith sep ls

/-- Greedy tail matcher for the fakeUsage pattern: given the text right
after the literal "; _ =", returns the length of the longest
.*-gap (newline-free) followed by the literal suffix, total length of
gap plus suffix, preferring the latest possible suffix occurrence
(RE2 greedy .*). -/
def fuTail : List Char → Option Nat
  | [] => none
  | c :: cs =>
    if c = '\n' then
      if isPre fakeUsageSuffix (c :: cs) then some fakeUsageSuffix.length
      else none
    else
      match fuTail cs with
      | some n => some (n + 1)
      | none =>
        if isPre fakeUsageSuffix (c :: cs) then some fakeUsageSuffix.length
        else none

/-- Length of the fakeUsage regexp match starting exactly at the head
of the list, if any (greedy). -/
def fuMatchLen (cs : List Char) : Option Nat :=
  if isPre fakeUsagePrefix cs then
    (fuTail (cs.drop fakeUsagePrefix.length)).map (· + fakeUsagePrefix.length)
  else none

/-- Character class \s of RE2: [\t\n\f\r ]. -/
def isWs (c : Char) : Bool :=
  c = ' ' || c = '\t' || c = '\n' || c = '\x0c' || c = '\r'

/-- Character class \w of RE2: [0-9A-Za-z_]. -/
def isWordChar (c : Char) : Bool := c.isAlphanum || c = '_'

/-- Greedy matcher for the trailing "\s*" ++ suffix part of the
fakeUsageAfterGofmt pattern, preferring the longest whitespace run. -/
def gfTail : List Char → Option Nat
  | [] => none
  | c :: cs =>
    if isWs c then
      match gfTail cs with
      | some n => some (n + 1)
      | none =>
        if isPre fakeUsageSuffix (c :: cs) then some fakeUsageSuffix.length
        else none
    else
      if isPre fakeUsageSuffix (c :: cs) then some fakeUsageSuffix.length
      else none

/-- Length of the fakeUsageAfterGofmt regexp match starting exactly at
the head of the list, if any.  The pattern is
\s* _ \s* "= " \w* \s* suffix; every starred class is forced to its
maximal run because the character that must follow it can never belong
to the class. -/
def gfMatchLen (cs : List Char) : Option Nat :=
  let w1 := cs.takeWhile isWs
  match cs.drop w1.length with
  | '_' :: r2 =>
    let w2 := r2.takeWhile isWs
    match r2.drop w2.length with
    | '=' :: ' ' :: r4 =>
      let w3 := r4.takeWhile isWordChar
      (gfTail (r4.drop w3.length)).map
        (fun n => w1.length + 1 + w2.length + 2 + w3.length + n)
    | _ => none
  | _ => none

/-- Model of Regexp.Match: does a match start at any position. -/
def matchesAnywhere (mat : List Char → Option Nat) : List Char → Bool
  | [] => (mat []).isSome
  | c :: cs => (mat (c :: cs)).isSome || matchesAnywhere mat cs

/-- Fuelled worker for replaceAllWith, removing every leftmost
non-overlapping match; fuel dominates the length of the list. -/
def raGo (mat : List Char → Option Nat) : Nat → List Char → List Char
  | _, [] => []
  | 0, l => l
  | fuel + 1, c :: cs =>
    match mat (c :: cs) with
    | some (n + 1) => raGo mat fuel (cs.drop n)
    | _ => c :: raGo mat fuel cs

/-- Model of Regexp.ReplaceAll with the empty replacement: scan left to
right, delete each leftmost match, continue after it. -/
def replaceAllWith (mat : List Char → Option Nat) (l : List Char) : List Char :=
  raGo mat l.length l

/-- Length of a match of the symbolPositionInError regexp
(go file extension, then one-based line and column, then ": ")
starting exactly at the head of the list.  Both digit runs are forced
maximal because the character after each must be a colon. -/
def posMatchLen (cs : List Char) : Option Nat :=
  if isPre ".go:".data cs then
    let r1 := cs.drop 4
    let d1 := r1.takeWhile Char.isDigit
    if d1.isEmpty then none
    else
      match r1.drop d1.length with
      | ':' :: r2 =>
        let d2 := r2.takeWhile Char.isDigit
        if d2.isEmpty then none
        else
          match r2.drop d2.length with
          | ':' :: ' ' :: _ => some (4 + d1.length + 1 + d2.length + 2)
          | _ => none
      | _ => none
  else none

/-- Length of a match of the composed per-class regexp,
symbolPositionInErrorRegexp ++ suffix, starting at the head. -/
def composedMatchLen (suffix : List Char) (cs : List Char) : Option Nat :=
  match posMatchLen cs with
  | some n => if isPre suffix (cs.drop n) then some (n + suffix.length) else none
  | none => none

/-- Model of r.MatchString for the composed per-class regexp. -/
def composedMatches (suffix e : List Char) : Bool :=
  matchesAnywhere (composedMatchLen suffix) e

/-- Model of Regexp.FindString: text of the leftmost match, or the
empty string when there is no match. -/
def findAt (mat : List Char → Option Nat) : List Char → List Char
  | [] =>
    match mat [] with
    | some _ => []
    | none => []
  | c :: cs =>
    match mat (c :: cs) with
    | some n => (c :: cs).take n
    | none => findAt mat cs

/-- Model of strconv.Atoi: optional sign, decimal digits, error on
anything else and on 64-bit overflow. -/
def goAtoi (s : List Char) : Except Unit Int :=
  let signed : Int × List Char :=
    match s with
    | '+' :: t => (1, t)
    | '-' :: t => (-1, t)
    | t => (1, t)
  match signed with
  | (sign, digits) =>
    if digits.isEmpty then Except.error ()
    else if digits.all Char.isDigit then
      let v : Nat := digits.foldl (fun a c => a * 10 + (c.toNat - 48)) 0
      if sign = 1 then
        if v ≤ 9223372036854775807 then Except.ok (v : Int) else Except.error ()
      else
        if v ≤ 9223372036854775808 then Except.ok (-(v : Int)) else Except.error ()
    else Except.error ()

/-- Name and line number of a symbol taken from a build error
(symbolInfo in core.go).  The line number is an integer because the
code subtracts one from the parsed one-based value without any check. -/
structure SymbolInfo where
  name : List Char
  lineNum : Int
deriving DecidableEq, Repr

/-- Failure modes of the embedded code: an error return originating in
strconv.Atoi, an error return originating in the temp-file io, and a
Go run-time panic (out-of-range indexing). -/
inductive GouseError where
  | parseError : GouseError
  | ioError : GouseError
  | panic : GouseError
deriving DecidableEq, Repr

/-- Constant nameIndex = 1 from core.go. -/
def nameIndex : Nat := 1

/-- Constant lineNumIndex = 1 from core.go. -/
def lineNumIndex : Nat := 1

/-- Go slice indexing: out of range is a run-time panic. -/
def listIdx (l : List (List Char)) (i : Nat) : Except GouseError (List Char) :=
  match l.get? i with
  | some a => Except.ok a
  | none => Except.error GouseError.panic

/-- Per-line loop of getSymbolsInfoFromBuildErrors: skip lines that do
not match the composed pattern; for each matching line parse the line
number out of the leftmost position match (strconv.Atoi, error on
failure) and take the name from the text after the class suffix. -/
def collectInfo (suffix : List Char) : List (List Char) → Except GouseError (List SymbolInfo)
  | [] => Except.ok []
  | e :: rest =>
    if composedMatches suffix e then
      match listIdx (splitOnSeq [':'] (findAt posMatchLen e)) lineNumIndex with
      | Except.error err => Except.error err
      | Except.ok fld =>
        match goAtoi fld with
        | Except.error _ => Except.error GouseError.parseError
        | Except.ok v =>
          match listIdx (splitOnSeq suffix e) nameIndex with
          | Except.error err => Except.error err
          | Except.ok nm =>
            match collectInfo suffix rest with
            | Except.error err => Except.error err
            | Except.ok tail => Except.ok (SymbolInfo.mk nm (v - 1) :: tail)
    else collectInfo suffix rest

/-- Model of getSymbolsInfoFromBuildErrors from core.go.  If the
cancellation token is already signalled, return an empty list at once;
otherwise run the build oracle: on success return an empty list, on
failure split the combined output into lines and scan them. -/
def getSymbolsInfoFromBuildErrors (build : List Char → Option (List Char))
    (cancelled : Bool) (code : List Char) (suffix : List Char) :
    Except GouseError (List SymbolInfo) :=
  if cancelled then Except.ok []
  else
    match build code with
    | none => Except.ok []
    | some boutput => collectInfo suffix (splitOnSeq ['\n'] boutput)

/-- Update of lines[i] in Go: a run-time panic when i is negative or
not below the length, otherwise replace the line by f applied to it. -/
def setLineAt (lines : List (List Char)) (i : Int)
    (f : List Char → List Char) : Except GouseError (List (List Char)) :=
  if 0 ≤ i ∧ i.toNat < lines.length then
    Except.ok (lines.set i.toNat (f ((lines.get? i.toNat).getD [])))
  else Except.error GouseError.panic

/-- Comment-out loop of toggle: prepend commentPrefix to the line of
every import-without-provider symbol, in order. -/
def commentFold : List (List Char) → List SymbolInfo → Except GouseError (List (List Char))
  | lines, [] => Except.ok lines
  | lines, info :: rest =>
    match setLineAt lines info.lineNum (fun l => commentPrefix ++ l) with
    | Except.error err => Except.error err
    | Except.ok lines2 => commentFold lines2 rest

/-- Fake-usage loop of toggle: append the marker text
fakeUsagePrefix ++ name ++ fakeUsageSuffix to the line of every
not-used symbol, in order. -/
def appendFold : List (List Char) → List SymbolInfo → Except GouseError (List (List Char))
  | lines, [] => Except.ok lines
  | lines, info :: rest =>
    match setLineAt lines info.lineNum
        (fun l => l ++ fakeUsagePrefix ++ info.name ++ fakeUsageSuffix) with
    | Except.error err => Except.error err
    | Except.ok lines2 => appendFold lines2 rest

/-- Un-comment loop of toggle: drop the first three runes of every
line that was commented out, in order (a Go slice of runes, so a
run-time panic when the line is shorter than the comment prefix). -/
def uncommentFold : List (List Char) → List Int → Except GouseError (List (List Char))
  | lines, [] => Except.ok lines
  | lines, i :: rest =>
    if 0 ≤ i ∧ i.toNat < lines.length ∧
        commentPrefix.length ≤ ((lines.get? i.toNat).getD []).length then
      uncommentFold
        (lines.set i.toNat
          (((lines.get? i.toNat).getD []).drop commentPrefix.length))
        rest
    else Except.error GouseError.panic

/-- Model of toggle from core.go.  First try to strip previously
created fake usages (canonical pattern before the gofmt pattern); if
neither pattern matches, comment out problematic imports, create fake
usages for declared-and-not-used errors, un-comment the commented
lines and join the buffer back. -/
def toggle (build : List Char → Option (List Char)) (cancelled : Bool)
    (code : List Char) : Except GouseError (List Char) :=
  if matchesAnywhere fuMatchLen code then
    Except.ok (replaceAllWith fuMatchLen code)
  else if matchesAnywhere gfMatchLen code then
    Except.ok (replaceAllWith gfMatchLen code)
  else
    match getSymbolsInfoFromBuildErrors build cancelled code
        noProviderErrorRegexpSuffix with
    | Except.error err => Except.error err
    | Except.ok importsWithoutProviderInfo =>
      match commentFold (splitOnSeq ['\n'] code) importsWithoutProviderInfo with
      | Except.error err => Except.error err
      | Except.ok lines1 =>
        match getSymbolsInfoFromBuildErrors build cancelled
            (joinWith ['\n'] lines1) notUsedErrorRegexpSuffix with
        | Except.error err => Except.error err
        | Except.ok notUsedVarsInfo =>
          match appendFold lines1 notUsedVarsInfo with
          | Except.error err => Except.error err
          | Except.ok lines2 =>
            match uncommentFold lines2
                (importsWithoutProviderInfo.map (·.lineNum)) with
            | Except.error err => Except.error err
            | Except.ok lines3 => Except.ok (joinWith ['\n'] lines3)

/-- Number of lines of a text, as bytes.Split produces them. -/
def numLines (s : List Char) : Nat := (splitOnSeq ['\n'] s).length

/-- Marker text created for one symbol name. -/
def markerOf (name : List Char) : List Char :=
  fakeUsagePrefix ++ name ++ fakeUsageSuffix

/-- Concatenated marker text that the fake-usage loop appends to line
j, in diagnostic order. -/
def markersAt (unused : List SymbolInfo) (j : Nat) : List Char :=
  ((unused.filter (fun s => s.lineNum = (j : Int))).map
    (fun s => markerOf s.name)).flatten

/-- Lines with the markers of the given diagnostics appended, the
first line carrying index i. -/
def withMarkers (unused : List SymbolInfo) : List (List Char) → Nat → List (List Char)
  | [], _ => []
  | l :: rest, j => (l ++ markersAt unused j) :: withMarkers unused rest (j + 1)

/-- Shape of the character list a sequence of appended markers forms:
a concatenation of blocks "; _ =" ++ name ++ " /* TODO: gouse */"
with newline-free names. -/
inductive MarkerConcat : List Char → Prop
  | nil : MarkerConcat []
  | cons (name rest : List Char) : '\n' ∉ name → MarkerConcat rest →
      MarkerConcat (markerOf name ++ rest)

/-! Basic properties of the literal prefix test. -/

theorem isPre_iff (p l : List Char) : isPre p l = true ↔ ∃ t, l = p ++ t := by
  induction p generalizing l with
  | nil => simp [isPre]
  | cons a as ih =>
    cases l with
    | nil => simp [isPre]
    | cons b bs =>
      simp only [isPre, Bool.and_eq_true, decide_eq_true_eq, ih, List.cons_append,
        List.cons.injEq]
      constructor
      · rintro ⟨h1, t, h2⟩
        exact ⟨t, h1.symm, h2⟩
      · rintro ⟨t, h1, h2⟩
        exact ⟨h1.symm, t, h2⟩

theorem isPre_append (p t : List Char) : isPre p (p ++ t) = true :=
  (isPre_iff p (p ++ t)).mpr ⟨t, rfl⟩

theorem isPre_length {p l : List Char} (h : isPre p l = true) : p.length ≤ l.length := by
  obtain ⟨t, rfl⟩ := (isPre_iff p l).mp h
  simp

theorem isPre_avoid {a : Char} {p : List Char} (ha : a ∉ p) (t ys : List Char) :
    isPre p (t ++ a :: ys) = isPre p t := by
  induction p generalizing t with
  | nil => simp [isPre]
  | cons x xs ih =>
    cases t with
    | nil =>
      simp only [List.nil_append, isPre]
      have hxa : ¬ (x = a) := fun h => ha (h ▸ List.mem_cons_self x xs)
      simp [hxa]
    | cons b bs =>
      simp only [List.cons_append, isPre, List.append_eq]
      have : a ∉ xs := fun h => ha (List.mem_cons_of_mem x h)
      rw [ih this]

/-! Properties of splitOnSeq and joinWith. -/

theorem splitSeqGo_fuel {sep : List Char} (hsep : sep ≠ []) :
    ∀ f1 f2 s, s.length ≤ f1 → s.length ≤ f2 →
      splitSeqGo sep f1 s = splitSeqGo sep f2 s := by
  intro f1
  induction f1 with
  | zero =>
    intro f2 s h1 _
    have : s = [] := List.eq_nil_of_length_eq_zero (Nat.le_zero.mp h1)
    subst this
    cases f2 <;> rfl
  | succ g1 ih =>
    intro f2 s h1 h2
    cases s with
    | nil => cases f2 <;> rfl
    | cons c cs =>
      cases f2 with
      | zero => exact absurd h2 (by simp)
      | succ g2 =>
        have hsl : 1 ≤ sep.length := by
          cases sep with
          | nil => exact absurd rfl hsep
          | cons _ _ => simp
        simp only [splitSeqGo]
        have hcs1 : cs.length ≤ g1 := by simpa using h1
        have hcs2 : cs.length ≤ g2 := by simpa using h2
        by_cases h : isPre sep (c :: cs) = true
        · simp only [h, if_true]
          have hd : ((c :: cs).drop sep.length).length ≤ cs.length := by
            simp only [List.length_drop, List.length_cons]
            omega
          rw [ih g2 _ (le_trans hd hcs1) (le_trans hd hcs2)]
        · simp only [h, if_false, Bool.false_eq_true]
          rw [ih g2 cs hcs1 hcs2]

theorem splitOnSeq_cons {sep : List Char} (hsep : sep ≠ []) (c : Char) (cs : List Char) :
    splitOnSeq sep (c :: cs) =
      if isPre sep (c :: cs) then
        [] :: splitOnSeq sep ((c :: cs).drop sep.length)
      else (splitOnSeq sep cs).modifyHead (c :: ·) := by
  have hsl : 1 ≤ sep.length := by
    cases sep with
    | nil => exact absurd rfl hsep
    | cons _ _ => simp
  show splitSeqGo sep (cs.length + 1) (c :: cs) = _
  simp only [splitSeqGo]
  by_cases h : isPre sep (c :: cs) = true
  · simp only [h, if_true]
    rw [splitSeqGo_fuel hsep cs.length ((c :: cs).drop sep.length).length]
    · rfl
    · simp only [List.length_drop, List.length_cons]; omega
    · exact le_refl _
  · simp only [h, if_false, Bool.false_eq_true]
    rfl

theorem splitSeqGo_ne_nil (sep : List Char) :
    ∀ fuel s, splitSeqGo sep fuel s ≠ [] := by
  intro fuel
  induction fuel with
  | zero => intro s; cases s <;> simp [splitSeqGo]
  | succ g ih =>
    intro s
    cases s with
    | nil => simp [splitSeqGo]
    | cons c cs =>
      simp only [splitSeqGo]
      by_cases h : isPre sep (c :: cs) = true
      · simp [h]
      · simp only [h, if_false, Bool.false_eq_true]
        have := ih cs
        cases hcs : splitSeqGo sep g cs with
        | nil => exact absurd hcs this
        | cons a t => simp [List.modifyHead]

theorem splitOnSeq_ne_nil (sep s : List Char) : splitOnSeq sep s ≠ [] :=
  splitSeqGo_ne_nil sep s.length s

theorem joinWith_cons₂ (sep l h : List Char) (t : List (List Char)) :
    joinWith sep (l :: h :: t) = l ++ sep ++ joinWith sep (h :: t) := rfl

theorem joinWith_splitSeqGo {sep : List Char} (hsep : sep ≠ []) :
    ∀ fuel s, s.length ≤ fuel → joinWith sep (splitSeqGo sep fuel s) = s := by
  have hsl : 1 ≤ sep.length := by
    cases sep with
    | nil => exact absurd rfl hsep
    | cons _ _ => simp
  intro fuel
  induction fuel with
  | zero =>
    intro s h
    have : s = [] := List.eq_nil_of_length_eq_zero (Nat.le_zero.mp h)
    subst this
    rfl
  | succ g ih =>
    intro s h
    cases s with
    | nil => rfl
    | cons c cs =>
      have hcs : cs.length ≤ g := by simpa using h
      simp only [splitSeqGo]
      by_cases hp : isPre sep (c :: cs) = true
      · simp only [hp, if_true]
        obtain ⟨rest, hrest⟩ := (isPre_iff sep (c :: cs)).mp hp
        have hdrop : (c :: cs).drop sep.length = rest := by
          rw [hrest, List.drop_left]
        rw [hdrop]
        have hrl : rest.length ≤ g := by
          have : (c :: cs).length = sep.length + rest.length := by
            rw [hrest, List.length_append]
          simp only [List.length_cons] at this
          omega
        cases hsp : splitSeqGo sep g rest with
        | nil => exact absurd hsp (splitSeqGo_ne_nil sep g rest)
        | cons a t =>
          rw [joinWith_cons₂]
          rw [← hsp, ih rest hrl, List.nil_append, hrest]
      · simp only [hp, if_false, Bool.false_eq_true]
        cases hsp : splitSeqGo sep g cs with
        | nil => exact absurd hsp (splitSeqGo_ne_nil sep g cs)
        | cons a t =>
          have hjoin : joinWith sep (a :: t) = cs := by rw [← hsp, ih cs hcs]
          cases t with
          | nil =>
            simp only [List.modifyHead, joinWith]
            simp only [joinWith] at hjoin
            rw [hjoin]
          | cons b t2 =>
            simp only [List.modifyHead]
            rw [joinWith_cons₂] at hjoin
            rw [joinWith_cons₂, List.cons_append, List.cons_append, hjoin]

theorem joinWith_splitOnSeq {sep : List Char} (hsep : sep ≠ []) (s : List Char) :
    joinWith sep (splitOnSeq sep s) = s :=
  joinWith_splitSeqGo hsep s.length s (le_refl _)

theorem splitSeqGo_head_prefix {sep : List Char} (hsep : sep ≠ []) :
    ∀ fuel s, ∃ h t, splitSeqGo sep fuel s = h :: t ∧ h <+: s := by
  intro fuel
  induction fuel with
  | zero =>
    intro s
    cases s with
    | nil => exact ⟨[], [], rfl, List.nil_prefix⟩
    | cons c cs => exact ⟨c :: cs, [], rfl, List.prefix_refl _⟩
  | succ g ih =>
    intro s
    cases s with
    | nil => exact ⟨[], [], rfl, List.nil_prefix⟩
    | cons c cs =>
      simp only [splitSeqGo]
      by_cases hp : isPre sep (c :: cs) = true
      · simp only [hp, if_true]
        exact ⟨[], _, rfl, List.nil_prefix⟩
      · simp only [hp, if_false, Bool.false_eq_true]
        obtain ⟨h, t, heq, hpre⟩ := ih cs
        rw [heq]
        exact ⟨c :: h, t, rfl, List.cons_prefix_cons.mpr ⟨rfl, hpre⟩⟩

theorem splitSeqGo_mem_within {sep : List Char} (hsep : sep ≠ []) :
    ∀ fuel s p, p ∈ splitSeqGo sep fuel s → p <:+: s := by
  intro fuel
  induction fuel with
  | zero =>
    intro s p hp
    cases s with
    | nil =>
      simp only [splitSeqGo, List.mem_singleton] at hp
      simp [hp]
    | cons c cs =>
      simp only [splitSeqGo, List.mem_singleton] at hp
      simp [hp]
  | succ g ih =>
    intro s p hp
    cases s with
    | nil =>
      simp only [splitSeqGo, List.mem_singleton] at hp
      simp [hp]
    | cons c cs =>
      simp only [splitSeqGo] at hp
      by_cases hb : isPre sep (c :: cs) = true
      · simp only [hb, if_true, List.mem_cons] at hp
        rcases hp with rfl | hp
        · exact List.nil_infix
        · have hi := ih _ p hp
          exact hi.trans (List.drop_suffix _ _).isInfix
      · simp only [hb, if_false, Bool.false_eq_true] at hp
        obtain ⟨h, t, heq, hpre⟩ := splitSeqGo_head_prefix hsep g cs
        rw [heq] at hp
        simp only [List.modifyHead, List.mem_cons] at hp
        rcases hp with rfl | hp
        · exact ((List.cons_prefix_cons.mpr ⟨rfl, hpre⟩).isInfix)
        · have hi := ih cs p (by rw [heq]; exact List.mem_cons_of_mem _ hp)
          exact hi.trans (List.suffix_cons c cs).isInfix

theorem splitOnSeq_mem_within {sep : List Char} (hsep : sep ≠ []) {s p : List Char}
    (hp : p ∈ splitOnSeq sep s) : p <:+: s :=
  splitSeqGo_mem_within hsep s.length s p hp

theorem splitOnSeq_mem_chars {sep : List Char} (hsep : sep ≠ []) {s p : List Char}
    (hp : p ∈ splitOnSeq sep s) {c : Char} (hc : c ∈ p) : c ∈ s := by
  obtain ⟨u, v, huv⟩ := splitOnSeq_mem_within hsep hp
  rw [← huv]
  simp [hc]

theorem isPre_single (a c : Char) (cs : List Char) :
    isPre [a] (c :: cs) = decide (a = c) := by
  simp [isPre]

theorem splitSeqGo_single_cons (a c : Char) (cs : List Char) (g : Nat) :
    splitSeqGo [a] (g + 1) (c :: cs) =
      if a = c then [] :: splitSeqGo [a] g cs
      else (splitSeqGo [a] g cs).modifyHead (c :: ·) := by
  simp only [splitSeqGo, isPre_single]
  by_cases hac : a = c
  · simp [hac]
  · simp [hac]

theorem splitSeqGo_single_nomem (a : Char) :
    ∀ fuel s, s.length ≤ fuel → ∀ p ∈ splitSeqGo [a] fuel s, a ∉ p := by
  intro fuel
  induction fuel with
  | zero =>
    intro s hs p hp
    have h0 : s = [] := List.eq_nil_of_length_eq_zero (Nat.le_zero.mp hs)
    subst h0
    simp only [splitSeqGo, List.mem_singleton] at hp
    simp [hp]
  | succ g ih =>
    intro s hs p hp
    cases s with
    | nil =>
      simp only [splitSeqGo, List.mem_singleton] at hp
      simp [hp]
    | cons c cs =>
      have hcs : cs.length ≤ g := by simpa using hs
      rw [splitSeqGo_single_cons] at hp
      by_cases hac : a = c
      · rw [if_pos hac] at hp
        rcases List.mem_cons.mp hp with rfl | hp2
        · simp
        · exact ih cs hcs p hp2
      · rw [if_neg hac] at hp
        obtain ⟨h, t, heq, _⟩ :=
          splitSeqGo_head_prefix (by simp : ([a] : List Char) ≠ []) g cs
        rw [heq] at hp
        simp only [List.modifyHead, List.mem_cons] at hp
        rcases hp with rfl | hp2
        · intro hmem
          rcases List.mem_cons.mp hmem with heq2 | hmem2
          · exact hac heq2
          · exact ih cs hcs h (by rw [heq]; exact List.mem_cons_self _ _) hmem2
        · exact ih cs hcs p (by rw [heq]; exact List.mem_cons_of_mem _ hp2)

theorem splitOnSeq_single_nomem {a : Char} {s p : List Char}
    (hp : p ∈ splitOnSeq [a] s) : a ∉ p :=
  splitSeqGo_single_nomem a s.length s (le_refl _) p hp

theorem splitSeqGo_nosep (a : Char) :
    ∀ fuel s, s.length ≤ fuel → a ∉ s → splitSeqGo [a] fuel s = [s] := by
  intro fuel
  induction fuel with
  | zero =>
    intro s hs _
    have : s = [] := List.eq_nil_of_length_eq_zero (Nat.le_zero.mp hs)
    subst this
    rfl
  | succ g ih =>
    intro s hs ha
    cases s with
    | nil => rfl
    | cons c cs =>
      have hac : ¬ (a = c) := fun h => ha (h ▸ List.mem_cons_self c cs)
      simp only [splitSeqGo, isPre_single, decide_eq_false_iff_not.mpr hac,
        Bool.false_eq_true, if_false]
      rw [ih cs (by simpa using hs) (fun h => ha (List.mem_cons_of_mem c h))]
      rfl

theorem splitOnSeq_nosep {a : Char} {s : List Char} (ha : a ∉ s) :
    splitOnSeq [a] s = [s] :=
  splitSeqGo_nosep a s.length s (le_refl _) ha

theorem splitSeqGo_prepend (a : Char) :
    ∀ p t fuel, (p ++ a :: t).length ≤ fuel → a ∉ p →
      splitSeqGo [a] fuel (p ++ a :: t) = p :: splitOnSeq [a] t := by
  intro p
  induction p with
  | nil =>
    intro t fuel hf _
    cases fuel with
    | zero => simp at hf
    | succ g =>
      simp only [List.nil_append, splitSeqGo, isPre_single, decide_eq_true_eq,
        if_pos rfl]
      rw [splitSeqGo_fuel (by simp : ([a] : List Char) ≠ []) g t.length]
      · rfl
      · simpa using hf
      · exact le_refl _
  | cons c p ih =>
    intro t fuel hf hap
    have hac : ¬ (a = c) := fun h => hap (h ▸ List.mem_cons_self c p)
    cases fuel with
    | zero => simp at hf
    | succ g =>
      simp only [List.cons_append, splitSeqGo, isPre_single,
        decide_eq_false_iff_not.mpr hac, Bool.false_eq_true, if_false,
        List.append_eq]
      rw [ih t g (by simpa using hf) (fun h => hap (List.mem_cons_of_mem c h))]
      simp [List.modifyHead]

theorem splitOnSeq_prepend {a : Char} {p t : List Char} (hap : a ∉ p) :
    splitOnSeq [a] (p ++ a :: t) = p :: splitOnSeq [a] t :=
  splitSeqGo_prepend a p t _ (le_refl _) hap

theorem splitOnSeq_joinWith {a : Char} :
    ∀ ls : List (List Char), ls ≠ [] → (∀ p ∈ ls, a ∉ p) →
      splitOnSeq [a] (joinWith [a] ls) = ls := by
  intro ls
  induction ls with
  | nil => intro h; exact absurd rfl h
  | cons l t ih =>
    intro _ hall
    cases t with
    | nil => exact splitOnSeq_nosep (hall l (List.mem_singleton.mpr rfl))
    | cons h2 t2 =>
      rw [joinWith_cons₂]
      rw [List.append_assoc, List.singleton_append]
      rw [splitOnSeq_prepend (hall l (List.mem_cons_self _ _))]
      rw [ih (by simp) (fun p hp => hall p (List.mem_cons_of_mem _ hp))]

theorem splitSeqGo_len_count (a : Char) :
    ∀ fuel s, s.length ≤ fuel →
      (splitSeqGo [a] fuel s).length = s.count a + 1 := by
  intro fuel
  induction fuel with
  | zero =>
    intro s hs
    have : s = [] := List.eq_nil_of_length_eq_zero (Nat.le_zero.mp hs)
    subst this
    rfl
  | succ g ih =>
    intro s hs
    cases s with
    | nil => rfl
    | cons c cs =>
      have hcs : cs.length ≤ g := by simpa using hs
      simp only [splitSeqGo, isPre_single]
      by_cases hac : a = c
      · subst hac
        simp [ih cs hcs, List.count_cons_self]
      · simp only [decide_eq_false_iff_not.mpr hac, Bool.false_eq_true,
          if_false, List.length_modifyHead]
        rw [ih cs hcs, List.count_cons_of_ne hac]

theorem splitOnSeq_len_count (a : Char) (s : List Char) :
    (splitOnSeq [a] s).length = s.count a + 1 :=
  splitSeqGo_len_count a s.length s (le_refl _)

/-! Properties of the replace-all scanner. -/

theorem raGo_fuel (mat : List Char → Option Nat) :
    ∀ f1 f2 l, l.length ≤ f1 → l.length ≤ f2 → raGo mat f1 l = raGo mat f2 l := by
  intro f1
  induction f1 with
  | zero =>
    intro f2 l h1 _
    have : l = [] := List.eq_nil_of_length_eq_zero (Nat.le_zero.mp h1)
    subst this
    cases f2 <;> rfl
  | succ g1 ih =>
    intro f2 l h1 h2
    cases l with
    | nil => cases f2 <;> rfl
    | cons c cs =>
      cases f2 with
      | zero => exact absurd h2 (by simp)
      | succ g2 =>
        have hc1 : cs.length ≤ g1 := by simpa using h1
        have hc2 : cs.length ≤ g2 := by simpa using h2
        simp only [raGo]
        cases hm : mat (c :: cs) with
        | none => rw [ih g2 cs hc1 hc2]
        | some n =>
          cases n with
          | zero => rw [ih g2 cs hc1 hc2]
          | succ k =>
            have hd : (cs.drop k).length ≤ cs.length := by
              simp [List.length_drop]
            exact ih g2 (cs.drop k) (le_trans hd hc1) (le_trans hd hc2)

theorem replaceAllWith_nil (mat : List Char → Option Nat) :
    replaceAllWith mat [] = [] := rfl

theorem replaceAllWith_cons_match {mat : List Char → Option Nat} {c : Char}
    {cs : List Char} {n : Nat} (h : mat (c :: cs) = some (n + 1)) :
    replaceAllWith mat (c :: cs) = replaceAllWith mat (cs.drop n) := by
  show raGo mat (cs.length + 1) (c :: cs) = _
  simp only [raGo, h]
  exact raGo_fuel mat cs.length (cs.drop n).length (cs.drop n)
    (by simp [List.length_drop]) (le_refl _)

theorem replaceAllWith_cons_nomatch {mat : List Char → Option Nat} {c : Char}
    {cs : List Char} (h : mat (c :: cs) = none) :
    replaceAllWith mat (c :: cs) = c :: replaceAllWith mat cs := by
  show raGo mat (cs.length + 1) (c :: cs) = _
  simp only [raGo, h]
  rfl

/-! Character-list forms of the string constants. -/

theorem fakeUsageSuffix_eq :
    fakeUsageSuffix =
      [' ', '/', '*', ' ', 'T', 'O', 'D', 'O', ':', ' ', 'g', 'o', 'u', 's',
        'e', ' ', '*', '/'] := rfl

theorem fakeUsagePrefix_eq : fakeUsagePrefix = [';', ' ', '_', ' ', '='] := rfl

theorem commentPrefix_eq : commentPrefix = ['/', '/', ' '] := rfl

theorem no_nl_fakeUsageSuffix : '\n' ∉ fakeUsageSuffix := by
  rw [fakeUsageSuffix_eq]; decide

theorem no_nl_fakeUsagePrefix : '\n' ∉ fakeUsagePrefix := by
  rw [fakeUsagePrefix_eq]; decide

/-! Properties of the fakeUsage matcher. -/

theorem fuTail_nl (cs : List Char) : fuTail ('\n' :: cs) = none := by
  simp only [fuTail, if_pos rfl]
  rw [fakeUsageSuffix_eq]
  simp [isPre]

theorem fuTail_cons_some {c : Char} {cs : List Char} {m : Nat}
    (hc : ¬ c = '\n') (hft : fuTail cs = some m) :
    fuTail (c :: cs) = some (m + 1) := by
  simp [fuTail, hc, hft]

theorem fuTail_cons_none {c : Char} {cs : List Char}
    (hc : ¬ c = '\n') (hft : fuTail cs = none) :
    fuTail (c :: cs) =
      if isPre fakeUsageSuffix (c :: cs) then some fakeUsageSuffix.length
      else none := by
  simp [fuTail, hc, hft]

theorem fuTail_le : ∀ {cs : List Char} {n : Nat}, fuTail cs = some n → n ≤ cs.length := by
  intro cs
  induction cs with
  | nil => intro n h; simp [fuTail] at h
  | cons c cs ih =>
    intro n h
    by_cases hc : c = '\n'
    · subst hc
      rw [fuTail_nl] at h
      cases h
    · cases hft : fuTail cs with
      | some m =>
        rw [fuTail_cons_some hc hft] at h
        cases h
        have := ih hft
        simp only [List.length_cons]
        omega
      | none =>
        rw [fuTail_cons_none hc hft] at h
        by_cases hp : isPre fakeUsageSuffix (c :: cs) = true
        · rw [if_pos hp] at h
          cases h
          exact isPre_length hp
        · rw [if_neg hp] at h
          cases h

theorem fuTail_pos {cs : List Char} {n : Nat} (h : fuTail cs = some n) : 1 ≤ n := by
  induction cs generalizing n with
  | nil => simp [fuTail] at h
  | cons c cs ih =>
    by_cases hc : c = '\n'
    · subst hc; rw [fuTail_nl] at h; cases h
    · cases hft : fuTail cs with
      | some m => rw [fuTail_cons_some hc hft] at h; cases h; omega
      | none =>
        rw [fuTail_cons_none hc hft] at h
        by_cases hp : isPre fakeUsageSuffix (c :: cs) = true
        · rw [if_pos hp] at h
          cases h
          rw [fakeUsageSuffix_eq]
          simp
        · rw [if_neg hp] at h; cases h

theorem fuTail_take : ∀ {cs : List Char} {n : Nat}, fuTail cs = some n →
    '\n' ∉ cs.take n := by
  intro cs
  induction cs with
  | nil => intro n h; simp [fuTail] at h
  | cons c cs ih =>
    intro n h
    by_cases hc : c = '\n'
    · subst hc; rw [fuTail_nl] at h; cases h
    · cases hft : fuTail cs with
      | some m =>
        rw [fuTail_cons_some hc hft] at h
        cases h
        simp only [List.take_succ_cons, List.mem_cons, not_or]
        exact ⟨fun hx => hc hx.symm, ih hft⟩
      | none =>
        rw [fuTail_cons_none hc hft] at h
        by_cases hp : isPre fakeUsageSuffix (c :: cs) = true
        · rw [if_pos hp] at h
          cases h
          obtain ⟨t, ht⟩ := (isPre_iff _ _).mp hp
          rw [ht, List.take_left]
          exact no_nl_fakeUsageSuffix
        · rw [if_neg hp] at h; cases h

theorem fuTail_avoid (ys : List Char) :
    ∀ t : List Char, fuTail (t ++ '\n' :: ys) = fuTail t := by
  intro t
  induction t with
  | nil =>
    rw [List.nil_append, fuTail_nl]
    rfl
  | cons c t ih =>
    by_cases hc : c = '\n'
    · subst hc
      rw [List.cons_append, fuTail_nl, fuTail_nl]
    · rw [List.cons_append]
      cases hft : fuTail t with
      | some m =>
        have hft2 : fuTail (t ++ '\n' :: ys) = some m := by rw [ih, hft]
        rw [fuTail_cons_some hc hft2, fuTail_cons_some hc hft]
      | none =>
        have hft2 : fuTail (t ++ '\n' :: ys) = none := by rw [ih, hft]
        rw [fuTail_cons_none hc hft2, fuTail_cons_none hc hft]
        rw [← List.cons_append]
        rw [isPre_avoid no_nl_fakeUsageSuffix]

theorem fuTail_short : ∀ {cs : List Char}, cs.length < fakeUsageSuffix.length →
    fuTail cs = none := by
  intro cs
  induction cs with
  | nil => intro _; rfl
  | cons c cs ih =>
    intro h
    by_cases hc : c = '\n'
    · subst hc; exact fuTail_nl cs
    · have hcs : cs.length < fakeUsageSuffix.length := by
        simp only [List.length_cons] at h
        omega
      rw [fuTail_cons_none hc (ih hcs)]
      rw [if_neg]
      intro hp
      have h1 := isPre_length hp
      have h2 : (c :: cs).length = cs.length + 1 := by simp
      omega

theorem fuTail_end : ∀ {z : List Char}, '\n' ∉ z →
    fuTail (z ++ fakeUsageSuffix) = some (z.length + fakeUsageSuffix.length) := by
  intro z
  induction z with
  | nil =>
    intro _
    have h : fuTail (List.nil ++ fakeUsageSuffix) = some fakeUsageSuffix.length := by
      decide
    simpa using h
  | cons c z ih =>
    intro hnz
    have hc : ¬ c = '\n' := fun h => hnz (h ▸ List.mem_cons_self c z)
    have hz : '\n' ∉ z := fun h => hnz (List.mem_cons_of_mem c h)
    rw [List.cons_append, fuTail_cons_some hc (ih hz)]
    simp only [List.length_cons, Option.some.injEq]
    omega

theorem fuMatchLen_bound {cs : List Char} {n : Nat} (h : fuMatchLen cs = some n) :
    1 ≤ n ∧ n ≤ cs.length := by
  simp only [fuMatchLen] at h
  by_cases hp : isPre fakeUsagePrefix cs = true
  · rw [if_pos hp] at h
    cases hft : fuTail (cs.drop fakeUsagePrefix.length) with
    | none => rw [hft] at h; cases h
    | some m =>
      rw [hft] at h
      simp only [Option.map_some', Option.some.injEq] at h
      have h1 := fuTail_le hft
      have h2 := isPre_length hp
      have h3 : fakeUsagePrefix.length = 5 := by rw [fakeUsagePrefix_eq]; rfl
      simp only [List.length_drop] at h1
      omega
  · rw [if_neg hp] at h; cases h

theorem fuMatchLen_take {cs : List Char} {n : Nat} (h : fuMatchLen cs = some n) :
    '\n' ∉ cs.take n := by
  simp only [fuMatchLen] at h
  by_cases hp : isPre fakeUsagePrefix cs = true
  · rw [if_pos hp] at h
    cases hft : fuTail (cs.drop fakeUsagePrefix.length) with
    | none => rw [hft] at h; cases h
    | some m =>
      rw [hft] at h
      simp only [Option.map_some', Option.some.injEq] at h
      subst h
      obtain ⟨t, rfl⟩ := (isPre_iff _ _).mp hp
      rw [List.drop_left] at hft
      rw [Nat.add_comm, List.take_append]
      intro hmem
      rcases List.mem_append.mp hmem with h1 | h1
      · exact no_nl_fakeUsagePrefix h1
      · exact fuTail_take hft h1
  · rw [if_neg hp] at h; cases h

theorem fuMatchLen_avoid (ys : List Char) (t : List Char) :
    fuMatchLen (t ++ '\n' :: ys) = fuMatchLen t := by
  simp only [fuMatchLen]
  rw [isPre_avoid no_nl_fakeUsagePrefix]
  by_cases hp : isPre fakeUsagePrefix t = true
  · rw [if_pos hp, if_pos hp]
    obtain ⟨t2, rfl⟩ := (isPre_iff _ _).mp hp
    rw [List.drop_left, List.append_assoc, List.drop_left]
    rw [fuTail_avoid]
  · rw [if_neg hp, if_neg hp]

/-! Structure of appended marker text. -/

theorem markerOf_eq (name : List Char) :
    markerOf name = fakeUsagePrefix ++ name ++ fakeUsageSuffix := rfl

theorem no_nl_markerOf {name : List Char} (hn : '\n' ∉ name) :
    '\n' ∉ markerOf name := by
  rw [markerOf_eq]
  intro h
  rcases List.mem_append.mp h with h1 | h1
  · rcases List.mem_append.mp h1 with h2 | h2
    · exact no_nl_fakeUsagePrefix h2
    · exact hn h2
  · exact no_nl_fakeUsageSuffix h1

theorem markerConcat_no_nl {m : List Char} (h : MarkerConcat m) : '\n' ∉ m := by
  induction h with
  | nil => simp
  | cons name rest hn _ ih =>
    intro hmem
    rcases List.mem_append.mp hmem with h1 | h1
    · exact no_nl_markerOf hn h1
    · exact ih h1

theorem markerConcat_head {m : List Char} (h : MarkerConcat m) (hne : m ≠ []) :
    ∃ m2, m = ';' :: m2 := by
  cases h with
  | nil => exact absurd rfl hne
  | cons name rest hn hrest =>
    refine ⟨(' ' :: '_' :: ' ' :: '=' :: []) ++ name ++ fakeUsageSuffix ++ rest, ?_⟩
    rw [markerOf_eq, fakeUsagePrefix_eq]
    simp

theorem markerConcat_ends {m : List Char} (h : MarkerConcat m) (hne : m ≠ []) :
    ∃ z, '\n' ∉ z ∧ fakeUsagePrefix.length ≤ z.length ∧
      m = z ++ fakeUsageSuffix := by
  induction h with
  | nil => exact absurd rfl hne
  | cons name rest hn hrest ih =>
    by_cases hr : rest = []
    · refine ⟨fakeUsagePrefix ++ name, ?_, ?_, ?_⟩
      · intro hmem
        rcases List.mem_append.mp hmem with h1 | h1
        · exact no_nl_fakeUsagePrefix h1
        · exact hn h1
      · simp
      · subst hr
        rw [markerOf_eq, List.append_nil, List.append_assoc]
    · obtain ⟨z, hz1, hz2, hz3⟩ := ih hr
      refine ⟨markerOf name ++ z, ?_, ?_, ?_⟩
      · intro hmem
        rcases List.mem_append.mp hmem with h1 | h1
        · exact no_nl_markerOf hn h1
        · exact hz1 h1
      · rw [List.length_append, markerOf_eq]
        simp only [List.length_append]
        omega
      · rw [hz3, List.append_assoc]

theorem fuMatchLen_marker {m : List Char} (h : MarkerConcat m) (hne : m ≠ []) :
    fuMatchLen m = some m.length := by
  have hpre : isPre fakeUsagePrefix m = true := by
    cases h with
    | nil => exact absurd rfl hne
    | cons name rest hn hrest =>
      rw [markerOf_eq, List.append_assoc, List.append_assoc]
      exact isPre_append _ _
  obtain ⟨z, hz1, hz2, hz3⟩ := markerConcat_ends h hne
  have hnl := markerConcat_no_nl h
  simp only [fuMatchLen, if_pos hpre]
  rw [hz3, List.drop_append_of_le_length hz2]
  have hzdrop : '\n' ∉ z.drop fakeUsagePrefix.length := by
    intro hmem
    exact hz1 (List.mem_of_mem_drop hmem)
  rw [fuTail_end hzdrop]
  simp only [Option.map_some', Option.some.injEq, List.length_drop,
    List.length_append]
  omega

theorem fuMatchLen_nil : fuMatchLen [] = none := by
  rw [fuMatchLen, if_neg]
  rw [fakeUsagePrefix_eq]
  simp [isPre]

theorem fuMatchLen_nl (cs : List Char) : fuMatchLen ('\n' :: cs) = none := by
  rw [fuMatchLen, if_neg]
  rw [fakeUsagePrefix_eq]
  simp [isPre]

theorem matchesAnywhere_fu_nl (ys : List Char) :
    ∀ t : List Char, matchesAnywhere fuMatchLen (t ++ '\n' :: ys) =
      (matchesAnywhere fuMatchLen t || matchesAnywhere fuMatchLen ys) := by
  intro t
  induction t with
  | nil =>
    simp only [List.nil_append, matchesAnywhere, fuMatchLen_nl, fuMatchLen_nil,
      Option.isSome_none, Bool.false_or]
  | cons c t2 ih =>
    have hb := fuMatchLen_avoid ys (c :: t2)
    rw [List.cons_append] at hb ⊢
    simp only [matchesAnywhere, hb, ih, Bool.or_assoc]

theorem replaceAll_fu_nl (ys : List Char) :
    ∀ t : List Char, replaceAllWith fuMatchLen (t ++ '\n' :: ys) =
      replaceAllWith fuMatchLen t ++ '\n' :: replaceAllWith fuMatchLen ys := by
  suffices H : ∀ (fuel : Nat) (t : List Char), t.length ≤ fuel →
      replaceAllWith fuMatchLen (t ++ '\n' :: ys) =
        replaceAllWith fuMatchLen t ++ '\n' :: replaceAllWith fuMatchLen ys by
    intro t
    exact H t.length t (le_refl _)
  intro fuel
  induction fuel with
  | zero =>
    intro t ht
    have h0 : t = [] := List.eq_nil_of_length_eq_zero (Nat.le_zero.mp ht)
    subst h0
    rw [List.nil_append, replaceAllWith_cons_nomatch (fuMatchLen_nl ys)]
    rfl
  | succ g ih =>
    intro t ht
    cases t with
    | nil =>
      rw [List.nil_append, replaceAllWith_cons_nomatch (fuMatchLen_nl ys)]
      rfl
    | cons c t2 =>
      have ht2 : t2.length ≤ g := by simpa using ht
      have hb : fuMatchLen (c :: (t2 ++ '\n' :: ys)) = fuMatchLen (c :: t2) :=
        fuMatchLen_avoid ys (c :: t2)
      rw [List.cons_append]
      cases hm : fuMatchLen (c :: t2) with
      | none =>
        rw [replaceAllWith_cons_nomatch (by rw [hb, hm]),
          replaceAllWith_cons_nomatch hm, ih t2 ht2, List.cons_append]
      | some n =>
        have hbound := fuMatchLen_bound hm
        cases n with
        | zero => omega
        | succ k =>
          have hk : k ≤ t2.length := by
            have := hbound.2
            simp only [List.length_cons] at this
            omega
          rw [replaceAllWith_cons_match (by rw [hb, hm]),
            replaceAllWith_cons_match hm,
            List.drop_append_of_le_length hk,
            ih (t2.drop k) (le_trans (by simp [List.length_drop]) ht2)]

theorem ra_skip {mat : List Char → Option Nat} {m : List Char} :
    ∀ o : List Char, (∀ s, s ≠ [] → s <:+ o → mat (s ++ m) = none) →
      replaceAllWith mat (o ++ m) = o ++ replaceAllWith mat m ∧
        matchesAnywhere mat (o ++ m) = matchesAnywhere mat m := by
  intro o
  induction o with
  | nil => intro _; simp
  | cons c o2 ih =>
    intro h
    have hc : mat ((c :: o2) ++ m) = none :=
      h (c :: o2) (by simp) (List.suffix_refl _)
    rw [List.cons_append] at hc
    have ih2 := ih (fun s hs hsuf => h s hs (hsuf.trans (List.suffix_cons c o2)))
    constructor
    · rw [List.cons_append, replaceAllWith_cons_nomatch hc, ih2.1,
        List.cons_append]
    · rw [List.cons_append]
      simp only [matchesAnywhere, hc, Option.isSome_none, Bool.false_or]
      exact ih2.2

theorem fuMatchLen_straddle {o m : List Char} (ho : ¬ fakeUsagePrefix <:+: o)
    (hm : m = [] ∨ ∃ m2, m = ';' :: m2) :
    ∀ s, s ≠ [] → s <:+ o → fuMatchLen (s ++ m) = none := by
  intro s hs hsuf
  rw [fuMatchLen, if_neg]
  intro hp
  obtain ⟨t, ht⟩ := (isPre_iff _ _).mp hp
  by_cases h5 : fakeUsagePrefix.length ≤ s.length
  · have hpre : fakeUsagePrefix <+: s := by
      refine ⟨s.drop fakeUsagePrefix.length, ?_⟩
      have htake : (s ++ m).take fakeUsagePrefix.length = fakeUsagePrefix := by
        rw [ht, List.take_left]
      rw [List.take_append_of_le_length h5] at htake
      calc fakeUsagePrefix ++ s.drop fakeUsagePrefix.length
          = s.take fakeUsagePrefix.length ++ s.drop fakeUsagePrefix.length := by
            rw [htake]
        _ = s := List.take_append_drop _ s
    exact ho (hpre.isInfix.trans hsuf.isInfix)
  · push_neg at h5
    rcases hm with rfl | ⟨m2, rfl⟩
    · rw [List.append_nil] at ht
      have := congrArg List.length ht
      simp only [List.length_append] at this
      have h5' : fakeUsagePrefix.length = 5 := by rw [fakeUsagePrefix_eq]; rfl
      omega
    · have hget : (s ++ ';' :: m2).get? s.length = some ';' := by
        rw [List.get?_append_right (le_refl _)]
        simp
      rw [ht, List.get?_append (by omega : s.length < fakeUsagePrefix.length)]
        at hget
      have hlen1 : 1 ≤ s.length := by
        cases s with
        | nil => exact absurd rfl hs
        | cons a b => simp
      have h5' : fakeUsagePrefix.length = 5 := by rw [fakeUsagePrefix_eq]; rfl
      rw [h5'] at h5
      interval_cases h : s.length <;>
        rw [fakeUsagePrefix_eq] at hget <;> simp at hget

theorem strip_line {o m : List Char} (ho : ¬ fakeUsagePrefix <:+: o)
    (hm : MarkerConcat m) :
    replaceAllWith fuMatchLen (o ++ m) = o ∧
      (m ≠ [] → matchesAnywhere fuMatchLen (o ++ m) = true) := by
  have hhead : m = [] ∨ ∃ m2, m = ';' :: m2 := by
    by_cases hne : m = []
    · exact Or.inl hne
    · exact Or.inr (markerConcat_head hm hne)
  have hskip := ra_skip o (fuMatchLen_straddle ho hhead)
  by_cases hne : m = []
  · subst hne
    refine ⟨?_, fun h => absurd rfl h⟩
    rw [hskip.1, replaceAllWith_nil, List.append_nil]
  · obtain ⟨m2, rfl⟩ := markerConcat_head hm hne
    have hfull : fuMatchLen (';' :: m2) = some (m2.length + 1) := by
      have := fuMatchLen_marker hm hne
      simpa using this
    constructor
    · rw [hskip.1, replaceAllWith_cons_match hfull, List.drop_length]
      rw [replaceAllWith_nil, List.append_nil]
    · intro _
      rw [hskip.2]
      simp [matchesAnywhere, hfull]

theorem markersAt_cons (s : SymbolInfo) (rest : List SymbolInfo) (j : Nat) :
    markersAt (s :: rest) j =
      if s.lineNum = (j : Int) then markerOf s.name ++ markersAt rest j
      else markersAt rest j := by
  by_cases h : s.lineNum = (j : Int)
  · simp [markersAt, List.filter_cons, h]
  · simp [markersAt, List.filter_cons, h]

theorem markerConcat_markersAt {unused : List SymbolInfo}
    (h : ∀ s ∈ unused, '\n' ∉ s.name) (j : Nat) :
    MarkerConcat (markersAt unused j) := by
  induction unused with
  | nil => exact MarkerConcat.nil
  | cons s rest ih =>
    have hs : '\n' ∉ s.name := h s (List.mem_cons_self _ _)
    have hr := ih (fun x hx => h x (List.mem_cons_of_mem _ hx))
    rw [markersAt_cons]
    by_cases hj : s.lineNum = (j : Int)
    · rw [if_pos hj]
      exact MarkerConcat.cons s.name _ hs hr
    · rw [if_neg hj]
      exact hr

theorem matches_join_mem {ls : List (List Char)} {l : List Char} (hmem : l ∈ ls)
    (hl : matchesAnywhere fuMatchLen l = true) :
    matchesAnywhere fuMatchLen (joinWith ['\n'] ls) = true := by
  induction ls with
  | nil => cases hmem
  | cons x rest ih =>
    cases rest with
    | nil =>
      rcases List.mem_singleton.mp hmem with rfl
      exact hl
    | cons y t =>
      rw [joinWith_cons₂, List.append_assoc, List.singleton_append,
        matchesAnywhere_fu_nl]
      rcases List.mem_cons.mp hmem with rfl | hmem2
      · rw [hl, Bool.true_or]
      · rw [ih hmem2, Bool.or_true]

theorem strip_withMarkers (unused : List SymbolInfo)
    (hnames : ∀ s ∈ unused, '\n' ∉ s.name) :
    ∀ (ls : List (List Char)) (i : Nat),
      (∀ l ∈ ls, ¬ fakeUsagePrefix <:+: l) →
      replaceAllWith fuMatchLen (joinWith ['\n'] (withMarkers unused ls i)) =
        joinWith ['\n'] ls := by
  intro ls
  induction ls with
  | nil => intro i _; rfl
  | cons l rest ih =>
    intro i hl
    have hol : ¬ fakeUsagePrefix <:+: l := hl l (List.mem_cons_self _ _)
    have hmc := markerConcat_markersAt hnames i
    cases rest with
    | nil =>
      show replaceAllWith fuMatchLen (joinWith ['\n']
        [l ++ markersAt unused i]) = joinWith ['\n'] [l]
      show replaceAllWith fuMatchLen (l ++ markersAt unused i) = l
      exact (strip_line hol hmc).1
    | cons l2 rest2 =>
      show replaceAllWith fuMatchLen (joinWith ['\n']
        ((l ++ markersAt unused i) :: withMarkers unused (l2 :: rest2) (i + 1))) = _
      have hwm : withMarkers unused (l2 :: rest2) (i + 1) =
          (l2 ++ markersAt unused (i + 1)) :: withMarkers unused rest2 (i + 2) := rfl
      rw [hwm, joinWith_cons₂, List.append_assoc, List.singleton_append,
        replaceAll_fu_nl, ← hwm]
      rw [ih (i + 1) (fun x hx => hl x (List.mem_cons_of_mem _ hx))]
      rw [(strip_line hol hmc).1, joinWith_cons₂, List.append_assoc,
        List.singleton_append]

theorem withMarkers_get? (unused : List SymbolInfo) :
    ∀ (ls : List (List Char)) (i j : Nat),
      (withMarkers unused ls i).get? j =
        (ls.get? j).map (· ++ markersAt unused (i + j)) := by
  intro ls
  induction ls with
  | nil => intro i j; simp [withMarkers]
  | cons l rest ih =>
    intro i j
    cases j with
    | zero => simp [withMarkers]
    | succ k =>
      show (withMarkers unused rest (i + 1)).get? k = _
      rw [ih (i + 1) k]
      have : i + 1 + k = i + (k + 1) := by omega
      rw [this]
      rfl

theorem withMarkers_length (unused : List SymbolInfo) :
    ∀ (ls : List (List Char)) (i : Nat),
      (withMarkers unused ls i).length = ls.length := by
  intro ls
  induction ls with
  | nil => intro i; rfl
  | cons l rest ih =>
    intro i
    show (withMarkers unused rest (i + 1)).length + 1 = rest.length + 1
    rw [ih]

/-! Characterisation of the three line-editing loops. -/

theorem setLineAt_ok_iff {lines : List (List Char)} {i : Int}
    {f : List Char → List Char} {out : List (List Char)} :
    setLineAt lines i f = Except.ok out ↔
      (0 ≤ i ∧ i.toNat < lines.length) ∧
        out = lines.set i.toNat (f ((lines.get? i.toNat).getD [])) := by
  rw [setLineAt]
  by_cases h : 0 ≤ i ∧ i.toNat < lines.length
  · rw [if_pos h]
    simp only [Except.ok.injEq]
    exact ⟨fun he => ⟨h, he.symm⟩, fun he => he.2.symm⟩
  · rw [if_neg h]
    constructor
    · intro he; cases he
    · intro he; exact absurd he.1 h

theorem commentFold_length :
    ∀ (infos : List SymbolInfo) (lines out : List (List Char)),
      commentFold lines infos = Except.ok out → out.length = lines.length := by
  intro infos
  induction infos with
  | nil =>
    intro lines out h
    simp only [commentFold, Except.ok.injEq] at h
    rw [h]
  | cons s rest ih =>
    intro lines out h
    simp only [commentFold] at h
    cases hset : setLineAt lines s.lineNum (fun l => commentPrefix ++ l) with
    | error e => rw [hset] at h; cases h
    | ok lines2 =>
      rw [hset] at h
      have h2 := (setLineAt_ok_iff.mp hset).2
      have := ih lines2 out h
      rw [this, h2, List.length_set]

theorem appendFold_length :
    ∀ (infos : List SymbolInfo) (lines out : List (List Char)),
      appendFold lines infos = Except.ok out → out.length = lines.length := by
  intro infos
  induction infos with
  | nil =>
    intro lines out h
    simp only [appendFold, Except.ok.injEq] at h
    rw [h]
  | cons s rest ih =>
    intro lines out h
    simp only [appendFold] at h
    cases hset : setLineAt lines s.lineNum
        (fun l => l ++ fakeUsagePrefix ++ s.name ++ fakeUsageSuffix) with
    | error e => rw [hset] at h; cases h
    | ok lines2 =>
      rw [hset] at h
      have h2 := (setLineAt_ok_iff.mp hset).2
      have := ih lines2 out h
      rw [this, h2, List.length_set]

theorem uncommentFold_length :
    ∀ (nums : List Int) (lines out : List (List Char)),
      uncommentFold lines nums = Except.ok out → out.length = lines.length := by
  intro nums
  induction nums with
  | nil =>
    intro lines out h
    simp only [uncommentFold, Except.ok.injEq] at h
    rw [h]
  | cons i rest ih =>
    intro lines out h
    simp only [uncommentFold] at h
    by_cases hc : 0 ≤ i ∧ i.toNat < lines.length ∧
        commentPrefix.length ≤ ((lines.get? i.toNat).getD []).length
    · rw [if_pos hc] at h
      have := ih _ out h
      rw [this, List.length_set]
    · rw [if_neg hc] at h
      cases h

theorem no_nl_getD {lines : List (List Char)} (h : ∀ l ∈ lines, '\n' ∉ l)
    (n : Nat) : '\n' ∉ (lines.get? n).getD [] := by
  cases hq : lines.get? n with
  | none => simp
  | some l0 => simpa using h l0 (List.get?_mem hq)

theorem no_nl_commentPrefix : '\n' ∉ commentPrefix := by
  rw [commentPrefix_eq]; decide

theorem commentFold_nl :
    ∀ (infos : List SymbolInfo) (lines out : List (List Char)),
      commentFold lines infos = Except.ok out → (∀ l ∈ lines, '\n' ∉ l) →
        ∀ l ∈ out, '\n' ∉ l := by
  intro infos
  induction infos with
  | nil =>
    intro lines out h hnl
    simp only [commentFold, Except.ok.injEq] at h
    subst h
    exact hnl
  | cons s rest ih =>
    intro lines out h hnl
    simp only [commentFold] at h
    cases hset : setLineAt lines s.lineNum (fun l => commentPrefix ++ l) with
    | error e => rw [hset] at h; cases h
    | ok lines2 =>
      rw [hset] at h
      obtain ⟨_, hl2⟩ := setLineAt_ok_iff.mp hset
      refine ih lines2 out h ?_
      intro l hmem
      rw [hl2] at hmem
      rcases List.mem_or_eq_of_mem_set hmem with hold | rfl
      · exact hnl l hold
      · intro hx
        rcases List.mem_append.mp hx with h1 | h1
        · exact no_nl_commentPrefix h1
        · exact no_nl_getD hnl _ h1

theorem appendFold_nl :
    ∀ (infos : List SymbolInfo) (lines out : List (List Char)),
      appendFold lines infos = Except.ok out →
      (∀ s ∈ infos, '\n' ∉ s.name) →
      (∀ l ∈ lines, '\n' ∉ l) → ∀ l ∈ out, '\n' ∉ l := by
  intro infos
  induction infos with
  | nil =>
    intro lines out h _ hnl
    simp only [appendFold, Except.ok.injEq] at h
    subst h
    exact hnl
  | cons s rest ih =>
    intro lines out h hnames hnl
    simp only [appendFold] at h
    cases hset : setLineAt lines s.lineNum
        (fun l => l ++ fakeUsagePrefix ++ s.name ++ fakeUsageSuffix) with
    | error e => rw [hset] at h; cases h
    | ok lines2 =>
      rw [hset] at h
      obtain ⟨_, hl2⟩ := setLineAt_ok_iff.mp hset
      refine ih lines2 out h
        (fun x hx => hnames x (List.mem_cons_of_mem _ hx)) ?_
      intro l hmem
      rw [hl2] at hmem
      rcases List.mem_or_eq_of_mem_set hmem with hold | rfl
      · exact hnl l hold
      · intro hx
        rcases List.mem_append.mp hx with h1 | h1
        · rcases List.mem_append.mp h1 with h2 | h2
          · rcases List.mem_append.mp h2 with h3 | h3
            · exact no_nl_getD hnl _ h3
            · exact no_nl_fakeUsagePrefix h3
          · exact hnames s (List.mem_cons_self _ _) h2
        · exact no_nl_fakeUsageSuffix h1

theorem uncommentFold_nl :
    ∀ (nums : List Int) (lines out : List (List Char)),
      uncommentFold lines nums = Except.ok out → (∀ l ∈ lines, '\n' ∉ l) →
        ∀ l ∈ out, '\n' ∉ l := by
  intro nums
  induction nums with
  | nil =>
    intro lines out h hnl
    simp only [uncommentFold, Except.ok.injEq] at h
    subst h
    exact hnl
  | cons i rest ih =>
    intro lines out h hnl
    simp only [uncommentFold] at h
    by_cases hc : 0 ≤ i ∧ i.toNat < lines.length ∧
        commentPrefix.length ≤ ((lines.get? i.toNat).getD []).length
    · rw [if_pos hc] at h
      refine ih _ out h ?_
      intro l hmem
      rcases List.mem_or_eq_of_mem_set hmem with hold | rfl
      · exact hnl l hold
      · intro hx
        exact no_nl_getD hnl _ (List.mem_of_mem_drop hx)
    · rw [if_neg hc] at h
      cases h

theorem set_get?_value {lines : List (List Char)} {n : Nat}
    (hlt : n < lines.length) (v : List Char) :
    (lines.set n v).get? n = some v := by
  rw [List.get?_eq_getElem?, List.getElem?_set_eq hlt]

theorem get?_isSome_of_lt {lines : List (List Char)} {n : Nat}
    (hlt : n < lines.length) : ∃ l0, lines.get? n = some l0 := by
  cases hq : lines.get? n with
  | none =>
    have := List.get?_eq_none.mp hq
    omega
  | some l0 => exact ⟨l0, rfl⟩

theorem commentFold_char :
    ∀ (infos : List SymbolInfo) (lines out : List (List Char)),
      commentFold lines infos = Except.ok out →
      (∀ s ∈ infos, 0 ≤ s.lineNum ∧ s.lineNum.toNat < lines.length) →
      (infos.map (fun s => s.lineNum)).Nodup →
      ∀ j : Nat, out.get? j = (lines.get? j).map
        (fun l => if (j : Int) ∈ infos.map (fun s => s.lineNum)
          then commentPrefix ++ l else l) := by
  intro infos
  induction infos with
  | nil =>
    intro lines out h _ _ j
    simp only [commentFold, Except.ok.injEq] at h
    subst h
    simp only [List.map_nil, List.not_mem_nil, if_false]
    cases lines.get? j <;> rfl
  | cons s rest ih =>
    intro lines out h hr hnd j
    simp only [commentFold] at h
    cases hset : setLineAt lines s.lineNum (fun l => commentPrefix ++ l) with
    | error e => rw [hset] at h; cases h
    | ok lines2 =>
      rw [hset] at h
      obtain ⟨⟨hge, hlt⟩, hl2⟩ := setLineAt_ok_iff.mp hset
      have hlen2 : lines2.length = lines.length := by rw [hl2, List.length_set]
      simp only [List.map_cons, List.nodup_cons] at hnd
      have hchar := ih lines2 out h
        (fun x hx => by rw [hlen2]; exact hr x (List.mem_cons_of_mem _ hx))
        hnd.2 j
      have hjeq : ((s.lineNum.toNat : Nat) : Int) = s.lineNum :=
        Int.toNat_of_nonneg hge
      by_cases hj : j = s.lineNum.toNat
      · subst hj
        obtain ⟨l0, hq⟩ := get?_isSome_of_lt hlt
        have hg2 : lines2.get? s.lineNum.toNat = some (commentPrefix ++ l0) := by
          rw [hl2, hq]
          exact set_get?_value hlt _
        rw [hchar, hg2, hq]
        simp only [Option.map_some', List.map_cons]
        have hmem1 : ((s.lineNum.toNat : Nat) : Int) ∉
            rest.map (fun s => s.lineNum) := by
          rw [hjeq]; exact hnd.1
        have hmem2 : ((s.lineNum.toNat : Nat) : Int) ∈
            s.lineNum :: rest.map (fun s => s.lineNum) := by
          rw [hjeq]; exact List.mem_cons_self _ _
        rw [if_neg hmem1, if_pos hmem2]
      · have hg2 : lines2.get? j = lines.get? j := by
          rw [hl2]
          exact List.get?_set_ne _ _ (fun he => hj he.symm)
        rw [hchar, hg2]
        have hne : (j : Int) ≠ s.lineNum := by
          intro he
          apply hj
          have h2 : ((j : Int)).toNat = s.lineNum.toNat := by rw [he]
          rwa [Int.toNat_natCast] at h2
        cases lines.get? j with
        | none => rfl
        | some l0 =>
          simp only [Option.map_some', Option.some.injEq, List.map_cons,
            List.mem_cons]
          by_cases hmem : (j : Int) ∈ rest.map (fun s => s.lineNum)
          · rw [if_pos hmem, if_pos (Or.inr hmem)]
          · rw [if_neg hmem, if_neg ?_]
            rintro (he | hm)
            · exact hne he
            · exact hmem hm

theorem appendFold_ok :
    ∀ (infos : List SymbolInfo) (lines : List (List Char)),
      (∀ s ∈ infos, 0 ≤ s.lineNum ∧ s.lineNum.toNat < lines.length) →
      ∃ out, appendFold lines infos = Except.ok out ∧
        ∀ j : Nat, out.get? j = (lines.get? j).map
          (fun l => l ++ markersAt infos j) := by
  intro infos
  induction infos with
  | nil =>
    intro lines _
    refine ⟨lines, rfl, fun j => ?_⟩
    have hm : markersAt [] j = [] := rfl
    rw [hm]
    cases lines.get? j with
    | none => rfl
    | some l0 => simp
  | cons s rest ih =>
    intro lines hr
    obtain ⟨hge, hlt⟩ := hr s (List.mem_cons_self _ _)
    have hjeq : ((s.lineNum.toNat : Nat) : Int) = s.lineNum :=
      Int.toNat_of_nonneg hge
    set lines2 := lines.set s.lineNum.toNat
      ((fun l => l ++ fakeUsagePrefix ++ s.name ++ fakeUsageSuffix)
        ((lines.get? s.lineNum.toNat).getD [])) with hl2
    have hlen2 : lines2.length = lines.length := by
      rw [hl2, List.length_set]
    obtain ⟨out, hout, hchar⟩ := ih lines2
      (fun x hx => by rw [hlen2]; exact hr x (List.mem_cons_of_mem _ hx))
    refine ⟨out, ?_, ?_⟩
    · simp only [appendFold]
      rw [show setLineAt lines s.lineNum
          (fun l => l ++ fakeUsagePrefix ++ s.name ++ fakeUsageSuffix) =
          Except.ok lines2 from setLineAt_ok_iff.mpr ⟨⟨hge, hlt⟩, hl2⟩]
      exact hout
    · intro j
      rw [hchar j, markersAt_cons]
      by_cases hj : j = s.lineNum.toNat
      · subst hj
        obtain ⟨l0, hq⟩ := get?_isSome_of_lt hlt
        have hg2 : lines2.get? s.lineNum.toNat =
            some (l0 ++ fakeUsagePrefix ++ s.name ++ fakeUsageSuffix) := by
          rw [hl2, hq]
          exact set_get?_value hlt _
        rw [hg2, hq, if_pos (by rw [hjeq])]
        simp only [Option.map_some', Option.some.injEq, markerOf_eq]
        simp only [List.append_assoc]
      · have hg2 : lines2.get? j = lines.get? j := by
          rw [hl2]
          exact List.get?_set_ne _ _ (fun he => hj he.symm)
        have hne : ¬ s.lineNum = (j : Int) := by
          intro he
          apply hj
          have h2 : ((j : Int)).toNat = s.lineNum.toNat := by rw [he]
          rw [Int.toNat_natCast] at h2
          omega
        rw [hg2, if_neg hne]

theorem uncommentFold_ok :
    ∀ (nums : List Int) (lines : List (List Char)),
      (∀ i ∈ nums, 0 ≤ i ∧ i.toNat < lines.length ∧
        commentPrefix.length ≤ ((lines.get? i.toNat).getD []).length) →
      nums.Nodup →
      ∃ out, uncommentFold lines nums = Except.ok out ∧
        ∀ j : Nat, out.get? j = (lines.get? j).map
          (fun l => if (j : Int) ∈ nums then l.drop commentPrefix.length
            else l) := by
  intro nums
  induction nums with
  | nil =>
    intro lines _ _
    refine ⟨lines, rfl, fun j => ?_⟩
    simp only [List.not_mem_nil, if_false]
    cases lines.get? j with
    | none => rfl
    | some l0 => rfl
  | cons i rest ih =>
    intro lines hr hnd
    obtain ⟨hge, hlt, hclen⟩ := hr i (List.mem_cons_self _ _)
    simp only [List.nodup_cons] at hnd
    have hjeq : ((i.toNat : Nat) : Int) = i := Int.toNat_of_nonneg hge
    set lines2 := lines.set i.toNat
      (((lines.get? i.toNat).getD []).drop commentPrefix.length) with hl2
    have hlen2 : lines2.length = lines.length := by rw [hl2, List.length_set]
    have hg2ne : ∀ x ∈ rest, lines2.get? x.toNat = lines.get? x.toNat := by
      intro x hx
      obtain ⟨hx0, _, _⟩ := hr x (List.mem_cons_of_mem _ hx)
      have hxi : x ≠ i := fun he => hnd.1 (he ▸ hx)
      have hxn : x.toNat ≠ i.toNat := by
        intro he
        apply hxi
        rw [← Int.toNat_of_nonneg hx0, ← hjeq, he]
      rw [hl2]
      exact List.get?_set_ne _ _ (fun he => hxn he.symm)
    obtain ⟨out, hout, hchar⟩ := ih lines2 (fun x hx => by
      obtain ⟨hx0, hxlt, hxlen⟩ := hr x (List.mem_cons_of_mem _ hx)
      refine ⟨hx0, ?_, ?_⟩
      · rw [hlen2]; exact hxlt
      · rw [hg2ne x hx]; exact hxlen) hnd.2
    refine ⟨out, ?_, ?_⟩
    · simp only [uncommentFold]
      rw [if_pos ⟨hge, hlt, hclen⟩]
      exact hout
    · intro j
      rw [hchar j]
      by_cases hj : j = i.toNat
      · subst hj
        obtain ⟨l0, hq⟩ := get?_isSome_of_lt hlt
        have hg2 : lines2.get? i.toNat =
            some (l0.drop commentPrefix.length) := by
          rw [hl2, hq]
          exact set_get?_value hlt _
        rw [hg2, hq]
        simp only [Option.map_some']
        have hmem1 : ((i.toNat : Nat) : Int) ∉ rest := by
          rw [hjeq]; exact hnd.1
        have hmem2 : ((i.toNat : Nat) : Int) ∈ i :: rest := by
          rw [hjeq]; exact List.mem_cons_self _ _
        rw [if_neg hmem1, if_pos hmem2]
      · have hg2 : lines2.get? j = lines.get? j := by
          rw [hl2]
          exact List.get?_set_ne _ _ (fun he => hj he.symm)
        rw [hg2]
        have hne : (j : Int) ≠ i := by
          intro he
          apply hj
          have h2 : ((j : Int)).toNat = i.toNat := by rw [he]
          rwa [Int.toNat_natCast] at h2
        cases lines.get? j with
        | none => rfl
        | some l0 =>
          simp only [Option.map_some', Option.some.injEq, List.mem_cons]
          by_cases hmem : (j : Int) ∈ rest
          · rw [if_pos hmem, if_pos (Or.inr hmem)]
          · rw [if_neg hmem, if_neg ?_]
            rintro (he | hm)
            · exact hne he
            · exact hmem hm

/-! Properties of the diagnostic extractor. -/

theorem listIdx_ok_mem {l : List (List Char)} {i : Nat} {a : List Char}
    (h : listIdx l i = Except.ok a) : a ∈ l := by
  simp only [listIdx] at h
  cases hq : l.get? i with
  | none => rw [hq] at h; cases h
  | some x =>
    rw [hq] at h
    cases h
    exact List.get?_mem hq

theorem collectInfo_cons_nomatch {suffix e : List Char}
    {rest : List (List Char)} (h : composedMatches suffix e = false) :
    collectInfo suffix (e :: rest) = collectInfo suffix rest := by
  simp [collectInfo, h]

theorem collectInfo_cons_match {suffix e fld nm : List Char} {v : Int}
    {rest : List (List Char)} {tail : List SymbolInfo}
    (hm : composedMatches suffix e = true)
    (h1 : listIdx (splitOnSeq [':'] (findAt posMatchLen e)) lineNumIndex =
      Except.ok fld)
    (h2 : goAtoi fld = Except.ok v)
    (h3 : listIdx (splitOnSeq suffix e) nameIndex = Except.ok nm)
    (h4 : collectInfo suffix rest = Except.ok tail) :
    collectInfo suffix (e :: rest) =
      Except.ok (SymbolInfo.mk nm (v - 1) :: tail) := by
  simp [collectInfo, hm, h1, h2, h3, h4]

theorem collectInfo_cons_atoi_error {suffix e fld : List Char}
    {rest : List (List Char)} (hm : composedMatches suffix e = true)
    (h1 : listIdx (splitOnSeq [':'] (findAt posMatchLen e)) lineNumIndex =
      Except.ok fld)
    (h2 : goAtoi fld = Except.error ()) :
    collectInfo suffix (e :: rest) = Except.error GouseError.parseError := by
  simp [collectInfo, hm, h1, h2]

theorem collectInfo_all_nomatch {suffix : List Char} :
    ∀ es : List (List Char), (∀ e ∈ es, composedMatches suffix e = false) →
      collectInfo suffix es = Except.ok [] := by
  intro es
  induction es with
  | nil => intro _; rfl
  | cons e rest ih =>
    intro h
    rw [collectInfo_cons_nomatch (h e (List.mem_cons_self _ _))]
    exact ih (fun x hx => h x (List.mem_cons_of_mem _ hx))

theorem collectInfo_names {suffix : List Char} (hsuf : suffix ≠ []) :
    ∀ (es : List (List Char)) (l : List SymbolInfo),
      collectInfo suffix es = Except.ok l → (∀ e ∈ es, '\n' ∉ e) →
        ∀ s ∈ l, '\n' ∉ s.name := by
  intro es
  induction es with
  | nil =>
    intro l h _ s hs
    simp only [collectInfo, Except.ok.injEq] at h
    subst h
    cases hs
  | cons e rest ih =>
    intro l h he
    by_cases hm : composedMatches suffix e = true
    · simp only [collectInfo, hm, if_true] at h
      cases h1 : listIdx (splitOnSeq [':'] (findAt posMatchLen e))
          lineNumIndex with
      | error err => rw [h1] at h; cases h
      | ok fld =>
        rw [h1] at h
        dsimp only at h
        cases h2 : goAtoi fld with
        | error u => rw [h2] at h; cases h
        | ok v =>
          rw [h2] at h
          dsimp only at h
          cases h3 : listIdx (splitOnSeq suffix e) nameIndex with
          | error err => rw [h3] at h; cases h
          | ok nm =>
            rw [h3] at h
            dsimp only at h
            cases h4 : collectInfo suffix rest with
            | error err => rw [h4] at h; cases h
            | ok tail =>
              rw [h4] at h
              dsimp only at h
              cases h
              intro s hs
              rcases List.mem_cons.mp hs with rfl | hs2
              · intro hx
                have hnm := listIdx_ok_mem h3
                have := splitOnSeq_mem_chars hsuf hnm hx
                exact he e (List.mem_cons_self _ _) this
              · exact ih tail h4
                  (fun x hx => he x (List.mem_cons_of_mem _ hx)) s hs2
    · rw [collectInfo_cons_nomatch (Bool.not_eq_true _ ▸ hm : composedMatches suffix e = false)] at h
      exact ih l h (fun x hx => he x (List.mem_cons_of_mem _ hx))

theorem getSymbols_cancelled (build : List Char → Option (List Char))
    (code suffix : List Char) :
    getSymbolsInfoFromBuildErrors build true code suffix = Except.ok [] := by
  simp [getSymbolsInfoFromBuildErrors]

theorem getSymbols_success {build : List Char → Option (List Char)}
    {code : List Char} (h : build code = none) (cancelled : Bool)
    (suffix : List Char) :
    getSymbolsInfoFromBuildErrors build cancelled code suffix =
      Except.ok [] := by
  cases cancelled <;> simp [getSymbolsInfoFromBuildErrors, h]

theorem getSymbols_some {build : List Char → Option (List Char)}
    {code bout : List Char} (h : build code = some bout) (suffix : List Char) :
    getSymbolsInfoFromBuildErrors build false code suffix =
      collectInfo suffix (splitOnSeq ['\n'] bout) := by
  simp [getSymbolsInfoFromBuildErrors, h]

theorem getSymbols_names {build : List Char → Option (List Char)}
    {cancelled : Bool} {code suffix : List Char} {l : List SymbolInfo}
    (hsuf : suffix ≠ [])
    (h : getSymbolsInfoFromBuildErrors build cancelled code suffix =
      Except.ok l) :
    ∀ s ∈ l, '\n' ∉ s.name := by
  cases cancelled with
  | true =>
    rw [getSymbols_cancelled] at h
    cases h
    intro s hs
    cases hs
  | false =>
    cases hb : build code with
    | none =>
      rw [getSymbols_success hb false suffix] at h
      cases h
      intro s hs
      cases hs
    | some bout =>
      rw [getSymbols_some hb suffix] at h
      exact collectInfo_names hsuf _ l h
        (fun e hx hmem => splitOnSeq_single_nomem hx hmem)

/-! Behaviour of toggle on the diagnostic path. -/

theorem toggle_strip_fu {code : List Char}
    (h : matchesAnywhere fuMatchLen code = true)
    (build : List Char → Option (List Char)) (cancelled : Bool) :
    toggle build cancelled code =
      Except.ok (replaceAllWith fuMatchLen code) := by
  simp [toggle, h]

theorem toggle_strip_gf {code : List Char}
    (h1 : matchesAnywhere fuMatchLen code = false)
    (h2 : matchesAnywhere gfMatchLen code = true)
    (build : List Char → Option (List Char)) (cancelled : Bool) :
    toggle build cancelled code =
      Except.ok (replaceAllWith gfMatchLen code) := by
  simp [toggle, h1, h2]

theorem toggle_diag {build : List Char → Option (List Char)} {canc : Bool}
    {code : List Char}
    {imps unused : List SymbolInfo} {clines : List (List Char)}
    (hfu : matchesAnywhere fuMatchLen code = false)
    (hgf : matchesAnywhere gfMatchLen code = false)
    (h1 : getSymbolsInfoFromBuildErrors build canc code
      noProviderErrorRegexpSuffix = Except.ok imps)
    (hr1 : ∀ s ∈ imps, 0 ≤ s.lineNum ∧
      s.lineNum.toNat < (splitOnSeq ['\n'] code).length)
    (hnd : (imps.map (fun s => s.lineNum)).Nodup)
    (hcl : commentFold (splitOnSeq ['\n'] code) imps = Except.ok clines)
    (h2 : getSymbolsInfoFromBuildErrors build canc (joinWith ['\n'] clines)
      notUsedErrorRegexpSuffix = Except.ok unused)
    (hr2 : ∀ s ∈ unused, 0 ≤ s.lineNum ∧
      s.lineNum.toNat < (splitOnSeq ['\n'] code).length) :
    toggle build canc code = Except.ok
      (joinWith ['\n'] (withMarkers unused (splitOnSeq ['\n'] code) 0)) := by
  have hclen : clines.length = (splitOnSeq ['\n'] code).length :=
    commentFold_length _ _ _ hcl
  have hcchar := commentFold_char imps _ clines hcl hr1 hnd
  obtain ⟨lines2, ha, hachar⟩ := appendFold_ok unused clines
    (fun s hs => by rw [hclen]; exact hr2 s hs)
  have hl2len : lines2.length = clines.length := appendFold_length _ _ _ ha
  have hnums : ∀ i ∈ imps.map (fun s => s.lineNum), ∃ s ∈ imps,
      s.lineNum = i := by
    intro i hi
    obtain ⟨s, hs, he⟩ := List.mem_map.mp hi
    exact ⟨s, hs, he⟩
  obtain ⟨lines3, hu, huchar⟩ :=
    uncommentFold_ok (imps.map (fun s => s.lineNum)) lines2
      (by
        intro i hi
        obtain ⟨s, hs, rfl⟩ := hnums i hi
        obtain ⟨hge, hlt⟩ := hr1 s hs
        refine ⟨hge, by rw [hl2len, hclen]; exact hlt, ?_⟩
        obtain ⟨l0, hq⟩ := get?_isSome_of_lt hlt
        have hcg : clines.get? s.lineNum.toNat =
            some (commentPrefix ++ l0) := by
          rw [hcchar, hq]
          simp only [Option.map_some']
          rw [if_pos (by
            rw [Int.toNat_of_nonneg hge]
            exact List.mem_map.mpr ⟨s, hs, rfl⟩)]
        have hag : lines2.get? s.lineNum.toNat =
            some (commentPrefix ++ l0 ++ markersAt unused s.lineNum.toNat) := by
          rw [hachar, hcg]
          rfl
        rw [hag]
        simp only [Option.getD_some, List.length_append]
        omega)
      (by
        have := hnd
        exact this)
  simp only [toggle, hfu, hgf, Bool.false_eq_true, if_false, h1, hcl, h2, ha,
    hu]
  have hfinal : lines3 = withMarkers unused (splitOnSeq ['\n'] code) 0 := by
    apply List.ext_get?
    intro j
    rw [huchar j, withMarkers_get?, Nat.zero_add]
    cases hq : (splitOnSeq ['\n'] code).get? j with
    | none =>
      have hq2 : clines.get? j = none := by
        rw [hcchar, hq]
        rfl
      have hq3 : lines2.get? j = none := by
        rw [hachar, hq2]
        rfl
      rw [hq3]
      rfl
    | some l0 =>
      have hq2 := hcchar j
      rw [hq] at hq2
      simp only [Option.map_some'] at hq2
      have hq3 := hachar j
      rw [hq2] at hq3
      simp only [Option.map_some'] at hq3
      rw [hq3]
      simp only [Option.map_some', Option.some.injEq]
      by_cases hmem : (j : Int) ∈ imps.map (fun s => s.lineNum)
      · rw [if_pos hmem, if_pos hmem, List.append_assoc, List.drop_left]
      · rw [if_neg hmem, if_neg hmem]
  rw [hfinal]

theorem markersAt_ne_nil {unused : List SymbolInfo} {s : SymbolInfo}
    (hs : s ∈ unused) (hge : 0 ≤ s.lineNum) :
    markersAt unused s.lineNum.toNat ≠ [] := by
  induction unused with
  | nil => cases hs
  | cons x rest ih =>
    rw [markersAt_cons]
    by_cases hx : x.lineNum = ((s.lineNum.toNat : Nat) : Int)
    · rw [if_pos hx]
      intro h
      have hmo : markerOf x.name ≠ [] := by
        rw [markerOf_eq, fakeUsagePrefix_eq]
        simp
      exact hmo (List.append_eq_nil.mp h).1
    · rw [if_neg hx]
      rcases List.mem_cons.mp hs with rfl | hs2
      · exact absurd (Int.toNat_of_nonneg hge).symm hx
      · exact ih hs2

theorem markersAt_nil_of_not_mem {unused : List SymbolInfo} {j : Nat}
    (h : (j : Int) ∉ unused.map (fun s => s.lineNum)) :
    markersAt unused j = [] := by
  induction unused with
  | nil => rfl
  | cons x rest ih =>
    rw [markersAt_cons, if_neg (fun he => h (by
      rw [List.map_cons, ← he]
      exact List.mem_cons_self _ _))]
    exact ih (fun hm => h (by rw [List.map_cons]; exact List.mem_cons_of_mem _ hm))

theorem withMarkers_nil : ∀ (ls : List (List Char)) (i : Nat),
    withMarkers [] ls i = ls := by
  intro ls
  induction ls with
  | nil => intro i; rfl
  | cons l rest ih =>
    intro i
    show (l ++ markersAt [] i) :: withMarkers [] rest (i + 1) = l :: rest
    rw [ih]
    have hm : markersAt [] i = [] := rfl
    rw [hm, List.append_nil]

theorem toggle_empty_info {build : List Char → Option (List Char)} {canc : Bool}
    {code : List Char}
    (hfu : matchesAnywhere fuMatchLen code = false)
    (hgf : matchesAnywhere gfMatchLen code = false)
    (h1 : getSymbolsInfoFromBuildErrors build canc code
      noProviderErrorRegexpSuffix = Except.ok [])
    (h2 : getSymbolsInfoFromBuildErrors build canc code
      notUsedErrorRegexpSuffix = Except.ok []) :
    toggle build canc code = Except.ok code := by
  have hjs : joinWith ['\n'] (splitOnSeq ['\n'] code) = code :=
    joinWith_splitOnSeq (by simp) code
  have h2b : getSymbolsInfoFromBuildErrors build canc
      (joinWith ['\n'] (splitOnSeq ['\n'] code)) notUsedErrorRegexpSuffix =
      Except.ok [] := by rw [hjs]; exact h2
  have hd := toggle_diag hfu hgf h1
    (by intro s hs; cases hs) (by simp) rfl h2b (by intro s hs; cases hs)
  rw [hd, withMarkers_nil, hjs]

theorem toggle_diag_destruct {build : List Char → Option (List Char)}
    {canc : Bool} {code out : List Char}
    (hfu : matchesAnywhere fuMatchLen code = false)
    (hgf : matchesAnywhere gfMatchLen code = false)
    (h : toggle build canc code = Except.ok out) :
    ∃ imps clines unused lines2 lines3,
      getSymbolsInfoFromBuildErrors build canc code
        noProviderErrorRegexpSuffix = Except.ok imps ∧
      commentFold (splitOnSeq ['\n'] code) imps = Except.ok clines ∧
      getSymbolsInfoFromBuildErrors build canc (joinWith ['\n'] clines)
        notUsedErrorRegexpSuffix = Except.ok unused ∧
      appendFold clines unused = Except.ok lines2 ∧
      uncommentFold lines2 (imps.map (fun s => s.lineNum)) =
        Except.ok lines3 ∧
      out = joinWith ['\n'] lines3 := by
  simp only [toggle, hfu, hgf, Bool.false_eq_true, if_false] at h
  cases hA : getSymbolsInfoFromBuildErrors build canc code
      noProviderErrorRegexpSuffix with
  | error e => rw [hA] at h; cases h
  | ok imps =>
    rw [hA] at h
    dsimp only at h
    cases hB : commentFold (splitOnSeq ['\n'] code) imps with
    | error e => rw [hB] at h; cases h
    | ok clines =>
      rw [hB] at h
      dsimp only at h
      cases hC : getSymbolsInfoFromBuildErrors build canc
          (joinWith ['\n'] clines) notUsedErrorRegexpSuffix with
      | error e => rw [hC] at h; cases h
      | ok unused =>
        rw [hC] at h
        dsimp only at h
        cases hD : appendFold clines unused with
        | error e => rw [hD] at h; cases h
        | ok lines2 =>
          rw [hD] at h
          dsimp only at h
          cases hE : uncommentFold lines2 (imps.map (fun s => s.lineNum)) with
          | error e => rw [hE] at h; cases h
          | ok lines3 =>
            rw [hE] at h
            dsimp only at h
            have hout : out = joinWith ['\n'] lines3 := by
              injection h with h9
              exact h9.symm
            exact ⟨imps, clines, unused, lines2, lines3, rfl, hB, hC, hD, hE,
              hout⟩

theorem raGo_count {mat : List Char → Option Nat}
    (hm : ∀ cs n, mat cs = some n → '\n' ∉ cs.take n) :
    ∀ fuel l, l.length ≤ fuel →
      (raGo mat fuel l).count '\n' = l.count '\n' := by
  intro fuel
  induction fuel with
  | zero =>
    intro l hl
    have h0 : l = [] := List.eq_nil_of_length_eq_zero (Nat.le_zero.mp hl)
    subst h0
    rfl
  | succ g ih =>
    intro l hl
    cases l with
    | nil => rfl
    | cons c cs =>
      have hcs : cs.length ≤ g := by simpa using hl
      simp only [raGo]
      cases hmc : mat (c :: cs) with
      | none =>
        simp only [List.count_cons]
        rw [ih cs hcs]
      | some n =>
        cases n with
        | zero =>
          simp only [List.count_cons]
          rw [ih cs hcs]
        | succ k =>
          have hdl : (cs.drop k).length ≤ g := by
            have : (cs.drop k).length ≤ cs.length := by
              simp [List.length_drop]
            omega
          rw [ih (cs.drop k) hdl]
          have hsplit : c :: cs =
              (c :: cs).take (k + 1) ++ (c :: cs).drop (k + 1) :=
            (List.take_append_drop _ _).symm
          have hnot : '\n' ∉ (c :: cs).take (k + 1) := hm _ _ hmc
          conv_rhs => rw [hsplit]
          rw [List.count_append, List.count_eq_zero.mpr hnot, Nat.zero_add]
          rfl

theorem replaceAll_count {mat : List Char → Option Nat}
    (hm : ∀ cs n, mat cs = some n → '\n' ∉ cs.take n) (l : List Char) :
    (replaceAllWith mat l).count '\n' = l.count '\n' :=
  raGo_count hm l.length l (le_refl _)

/-! Claim theorems. -/

/-- C2: if the input matches a marker pattern anywhere, toggle strips all
occurrences of that form and returns the result without ever invoking the
build: the canonical fakeUsage pattern is applied whenever it matches,
the post-reformat pattern only when the canonical one does not, and on
any marker match the result is independent of the build oracle and of the
cancellation token, so the diagnostic phase never runs. -/
theorem C2_marker_strip_short_circuits
    (build1 build2 : List Char → Option (List Char)) (c1 c2 : Bool)
    (code : List Char) :
    (matchesAnywhere fuMatchLen code = true →
      toggle build1 c1 code = Except.ok (replaceAllWith fuMatchLen code)) ∧
    (matchesAnywhere fuMatchLen code = false →
      matchesAnywhere gfMatchLen code = true →
      toggle build1 c1 code = Except.ok (replaceAllWith gfMatchLen code)) ∧
    ((matchesAnywhere fuMatchLen code = true ∨
        matchesAnywhere gfMatchLen code = true) →
      toggle build1 c1 code = toggle build2 c2 code) := by
  refine ⟨fun h => toggle_strip_fu h build1 c1,
    fun h1 h2 => toggle_strip_gf h1 h2 build1 c1, fun h => ?_⟩
  by_cases hfu : matchesAnywhere fuMatchLen code = true
  · rw [toggle_strip_fu hfu build1 c1, toggle_strip_fu hfu build2 c2]
  · have hfu2 : matchesAnywhere fuMatchLen code = false := by
      cases hq : matchesAnywhere fuMatchLen code
      · rfl
      · exact absurd hq hfu
    have hgf : matchesAnywhere gfMatchLen code = true := by
      rcases h with h | h
      · exact absurd h hfu
      · exact h
    rw [toggle_strip_gf hfu2 hgf build1 c1, toggle_strip_gf hfu2 hgf build2 c2]

/-- C2 witness: a concrete text carrying a canonical marker is stripped,
for an arbitrary build oracle. -/
theorem C2_marker_strip_short_circuits_witness :
    matchesAnywhere fuMatchLen "v := 1; _ = v /* TODO: gouse */".data = true ∧
    toggle (fun _ => none) false "v := 1; _ = v /* TODO: gouse */".data =
      Except.ok (replaceAllWith fuMatchLen
        "v := 1; _ = v /* TODO: gouse */".data) :=
  ⟨rfl, (C2_marker_strip_short_circuits (fun _ => none) (fun _ => none)
    false false "v := 1; _ = v /* TODO: gouse */".data).1 rfl⟩

/-- C6: a cancellation token that is already signalled makes the extractor
return an empty sequence at once for every build oracle, an empty edit
set leaves the line buffer untouched in both edit loops, and a whole
cancelled toggle call on marker-free input returns the buffer
unmodified. -/
theorem C6_cancelled_extractor_noop
    (build build2 : List Char → Option (List Char))
    (code code2 suffix : List Char) (lines : List (List Char)) :
    getSymbolsInfoFromBuildErrors build true code suffix = Except.ok [] ∧
    commentFold lines [] = Except.ok lines ∧
    appendFold lines [] = Except.ok lines ∧
    (matchesAnywhere fuMatchLen code2 = false →
      matchesAnywhere gfMatchLen code2 = false →
      toggle build2 true code2 = Except.ok code2) :=
  ⟨getSymbols_cancelled build code suffix, rfl, rfl,
    fun h1 h2 => toggle_empty_info h1 h2 (getSymbols_cancelled _ _ _)
      (getSymbols_cancelled _ _ _)⟩

/-- C6 witness: a cancelled toggle call over a concrete failing build is
an identity. -/
theorem C6_cancelled_extractor_noop_witness :
    toggle (fun _ => some "./x.go:1:1: syntax error".data) true
      "package main".data = Except.ok "package main".data :=
  (C6_cancelled_extractor_noop (fun _ => none)
    (fun _ => some "./x.go:1:1: syntax error".data) [] "package main".data
    [] []).2.2.2 rfl rfl

/-- C7: captured build output whose lines all fail the composed
position-plus-class pattern produces an empty symbol sequence and no
error. -/
theorem C7_unrecognized_lines_ignored {build : List Char → Option (List Char)}
    {code bout : List Char} (suffix : List Char)
    (h : build code = some bout)
    (hall : ∀ e ∈ splitOnSeq ['\n'] bout, composedMatches suffix e = false) :
    getSymbolsInfoFromBuildErrors build false code suffix = Except.ok [] := by
  rw [getSymbols_some h suffix]
  exact collectInfo_all_nomatch _ hall

/-- C7 witness: a syntax-error diagnostic is ignored by both recognized
classes. -/
theorem C7_unrecognized_lines_ignored_witness :
    getSymbolsInfoFromBuildErrors
      (fun c => if c = "package main".data then
        some "./x.go:9:1: syntax error: unexpected EOF".data else none)
      false "package main".data notUsedErrorRegexpSuffix = Except.ok [] :=
  C7_unrecognized_lines_ignored notUsedErrorRegexpSuffix rfl (by decide)

/-- C8: a build-output line matching the composed pattern contributes one
SymbolInfo whose line number is the parsed one-based value minus one and
whose name is the text after the class fragment. -/
theorem C8_matching_line_parsed {build : List Char → Option (List Char)}
    {code bout e fld nm : List Char} {rest : List (List Char)} {v : Int}
    {tail : List SymbolInfo} (suffix : List Char)
    (hb : build code = some bout)
    (hsplit : splitOnSeq ['\n'] bout = e :: rest)
    (hm : composedMatches suffix e = true)
    (h1 : listIdx (splitOnSeq [':'] (findAt posMatchLen e)) lineNumIndex =
      Except.ok fld)
    (h2 : goAtoi fld = Except.ok v)
    (h3 : listIdx (splitOnSeq suffix e) nameIndex = Except.ok nm)
    (h4 : collectInfo suffix rest = Except.ok tail) :
    getSymbolsInfoFromBuildErrors build false code suffix =
      Except.ok (SymbolInfo.mk nm (v - 1) :: tail) := by
  rw [getSymbols_some hb suffix, hsplit]
  exact collectInfo_cons_match hm h1 h2 h3 h4

/-- C8 witness: the diagnostic at one-based line 4 yields a SymbolInfo at
zero-based line 3 carrying the text after the class fragment. -/
theorem C8_matching_line_parsed_witness :
    getSymbolsInfoFromBuildErrors
      (fun c => if c = "package main".data then
        some "./x.go:4:2: declared and not used: notUsed".data else none)
      false "package main".data notUsedErrorRegexpSuffix =
      Except.ok [SymbolInfo.mk " notUsed".data 3] :=
  @C8_matching_line_parsed
    (fun c => if c = "package main".data then
      some "./x.go:4:2: declared and not used: notUsed".data else none)
    "package main".data
    "./x.go:4:2: declared and not used: notUsed".data
    "./x.go:4:2: declared and not used: notUsed".data
    "4".data
    " notUsed".data
    []
    4
    []
    notUsedErrorRegexpSuffix
    rfl rfl rfl rfl rfl rfl rfl

/-- C9: when the numeric line field of a matching diagnostic cannot be
parsed, the extractor fails with the Atoi-originated parse error, and the
whole toggle call aborts with that error, returning no buffer. -/
theorem C9_parse_error_aborts {build : List Char → Option (List Char)}
    {code bout e fld : List Char} {rest : List (List Char)}
    (hfu : matchesAnywhere fuMatchLen code = false)
    (hgf : matchesAnywhere gfMatchLen code = false)
    (hb : build code = some bout)
    (hsplit : splitOnSeq ['\n'] bout = e :: rest)
    (hm : composedMatches noProviderErrorRegexpSuffix e = true)
    (h1 : listIdx (splitOnSeq [':'] (findAt posMatchLen e)) lineNumIndex =
      Except.ok fld)
    (h2 : goAtoi fld = Except.error ()) :
    getSymbolsInfoFromBuildErrors build false code
      noProviderErrorRegexpSuffix = Except.error GouseError.parseError ∧
    toggle build false code = Except.error GouseError.parseError := by
  have hext : getSymbolsInfoFromBuildErrors build false code
      noProviderErrorRegexpSuffix = Except.error GouseError.parseError := by
    rw [getSymbols_some hb _, hsplit]
    exact collectInfo_cons_atoi_error hm h1 h2
  refine ⟨hext, ?_⟩
  simp only [toggle, hfu, hgf, Bool.false_eq_true, if_false, hext]

/-- C9 witness: a 20-digit line number overflows the 64-bit integer
parser and aborts the toggle call. -/
theorem C9_parse_error_aborts_witness :
    toggle (fun c => if c = "package main".data then some
      "./x.go:99999999999999999999:1: no required module provides package foo".data
      else none) false "package main".data =
      Except.error GouseError.parseError :=
  (@C9_parse_error_aborts
    (fun c => if c = "package main".data then some
      "./x.go:99999999999999999999:1: no required module provides package foo".data
      else none)
    "package main".data
    "./x.go:99999999999999999999:1: no required module provides package foo".data
    "./x.go:99999999999999999999:1: no required module provides package foo".data
    "99999999999999999999".data
    []
    rfl rfl rfl rfl rfl rfl rfl).2

/-- C10: toggle indexes the split line buffer with the extracted
zero-based line number without a bounds check, so a diagnostic naming
line zero makes the adjusted index negative and the call fails with the
run-time panic, not with an ordinary error return. -/
theorem C10_out_of_range_panics :
    toggle (fun c => if c = "package main\nimport q".data then
      some "./x.go:0:1: no required module provides package foo".data
      else none) false "package main\nimport q".data =
      Except.error GouseError.panic := rfl

/-- C4 (counterexample): an input whose build succeeds — no unused
symbols, no unresolved imports — but which contains a marker is stripped
by toggle, so toggle does not return every clean input unchanged. -/
theorem C4_clean_noop_counterexample :
    (fun _ : List Char => (none : Option (List Char)))
      "package main\n\nfunc main() \x7b\n\tv := 1; _ = v /* TODO: gouse */\n\x7d".data
      = none ∧
    toggle (fun _ => none) false
      "package main\n\nfunc main() \x7b\n\tv := 1; _ = v /* TODO: gouse */\n\x7d".data =
      Except.ok "package main\n\nfunc main() \x7b\n\tv := 1\n\x7d".data ∧
    "package main\n\nfunc main() \x7b\n\tv := 1\n\x7d".data ≠
      "package main\n\nfunc main() \x7b\n\tv := 1; _ = v /* TODO: gouse */\n\x7d".data :=
  ⟨rfl, rfl, by decide⟩

/-- C4 (amended): toggle returns the input unchanged whenever the build
of the input succeeds AND the input contains no marker in either surface
form; the extractor then returns an empty sequence for both diagnostic
classes and an empty edit set modifies no line. -/
theorem C4_clean_noop_amended {build : List Char → Option (List Char)}
    {code : List Char} (canc : Bool)
    (hfu : matchesAnywhere fuMatchLen code = false)
    (hgf : matchesAnywhere gfMatchLen code = false)
    (hb : build code = none) :
    toggle build canc code = Except.ok code :=
  toggle_empty_info hfu hgf (getSymbols_success hb canc _)
    (getSymbols_success hb canc _)

/-- C4 witness: a concrete marker-free compiling program is left
untouched. -/
theorem C4_clean_noop_amended_witness :
    toggle (fun _ => none) false
      "package main\n\nfunc main() \x7b\n\x7d".data =
      Except.ok "package main\n\nfunc main() \x7b\n\x7d".data :=
  C4_clean_noop_amended false rfl rfl rfl

/-- C5 (counterexample): a single toggle pass does not always preserve
the line count: stripping a marker in the post-gofmt surface form also
removes the whitespace, including the newline, that the reformatter put
before it, deleting the whole line the marker occupied. -/
theorem C5_line_count_counterexample :
    toggle (fun _ => none) false "a\n\t_ = v /* TODO: gouse */\nb".data =
      Except.ok "a\nb".data ∧
    numLines "a\n\t_ = v /* TODO: gouse */\nb".data = 3 ∧
    numLines "a\nb".data = 2 :=
  ⟨rfl, rfl, rfl⟩

/-- C5 (amended): every successful toggle pass that does not take the
post-reformat strip branch — the canonical strip branch and the whole
diagnostic branch — leaves the buffer line count unchanged: markers are
added to or removed from existing lines only and comment insertions are
reversed within the pass. -/
theorem C5_line_count_amended {build : List Char → Option (List Char)}
    {canc : Bool} {code out : List Char}
    (htog : toggle build canc code = Except.ok out)
    (hbr : matchesAnywhere fuMatchLen code = true ∨
      matchesAnywhere gfMatchLen code = false) :
    numLines out = numLines code := by
  by_cases hfu : matchesAnywhere fuMatchLen code = true
  · rw [toggle_strip_fu hfu build canc] at htog
    injection htog with he
    rw [← he, numLines, numLines, splitOnSeq_len_count, splitOnSeq_len_count,
      replaceAll_count (fun cs n h => fuMatchLen_take h)]
  · have hfu2 : matchesAnywhere fuMatchLen code = false := by
      cases hq : matchesAnywhere fuMatchLen code
      · rfl
      · exact absurd hq hfu
    have hgf : matchesAnywhere gfMatchLen code = false := by
      rcases hbr with h | h
      · exact absurd h hfu
      · exact h
    obtain ⟨imps, clines, unused, lines2, lines3, hA, hB, hC, hD, hE, hout⟩ :=
      toggle_diag_destruct hfu2 hgf htog
    have hl0 : ∀ l ∈ splitOnSeq ['\n'] code, '\n' ∉ l :=
      fun l hl => splitOnSeq_single_nomem hl
    have hnl1 := commentFold_nl imps _ clines hB hl0
    have hnames := getSymbols_names (by decide) hC
    have hnl2 := appendFold_nl unused clines lines2 hD hnames hnl1
    have hnl3 := uncommentFold_nl _ lines2 lines3 hE hnl2
    have hlen : lines3.length = (splitOnSeq ['\n'] code).length := by
      rw [uncommentFold_length _ _ _ hE, appendFold_length _ _ _ hD,
        commentFold_length _ _ _ hB]
    have hne3 : lines3 ≠ [] := by
      intro h0
      have hpos : 0 < (splitOnSeq ['\n'] code).length :=
        List.length_pos.mpr (splitOnSeq_ne_nil _ _)
      rw [h0] at hlen
      simp only [List.length_nil] at hlen
      omega
    rw [hout, numLines, splitOnSeq_joinWith lines3 hne3 hnl3, hlen]
    rfl

/-- C5 witness: a canonical strip pass preserving the two-line shape. -/
theorem C5_line_count_amended_witness :
    numLines "x\ny".data = numLines "x; _ = v /* TODO: gouse */\ny".data :=
  @C5_line_count_amended (fun _ => none) false
    "x; _ = v /* TODO: gouse */\ny".data "x\ny".data rfl (Or.inl rfl)

/-- C3: in the import-neutralization scenario — the first extractor call
reports unresolved imports on the raw input, the second call, made
against the buffer with exactly those lines comment-prefixed, reports an
unused variable — a single toggle call produces the buffer whose line j
is the original line j plus the markers of the diagnostics naming j; in
particular every comment-prefixed line is restored byte-identical to the
input except for markers appended to it, and byte-identical outright
when no unused-symbol diagnostic names it. -/
theorem C3_import_neutralization {build : List Char → Option (List Char)}
    {code : List Char} {imps unused : List SymbolInfo}
    {clines : List (List Char)}
    (hfu : matchesAnywhere fuMatchLen code = false)
    (hgf : matchesAnywhere gfMatchLen code = false)
    (h1 : getSymbolsInfoFromBuildErrors build false code
      noProviderErrorRegexpSuffix = Except.ok imps)
    (hr1 : ∀ s ∈ imps, 0 ≤ s.lineNum ∧
      s.lineNum.toNat < (splitOnSeq ['\n'] code).length)
    (hnd : (imps.map (fun s => s.lineNum)).Nodup)
    (hcl : commentFold (splitOnSeq ['\n'] code) imps = Except.ok clines)
    (h2 : getSymbolsInfoFromBuildErrors build false (joinWith ['\n'] clines)
      notUsedErrorRegexpSuffix = Except.ok unused)
    (hr2 : ∀ s ∈ unused, 0 ≤ s.lineNum ∧
      s.lineNum.toNat < (splitOnSeq ['\n'] code).length)
    (himp : imps ≠ []) (hun : unused ≠ []) :
    toggle build false code = Except.ok
      (joinWith ['\n'] (withMarkers unused (splitOnSeq ['\n'] code) 0)) ∧
    (∀ s ∈ imps, (withMarkers unused (splitOnSeq ['\n'] code) 0).get?
      s.lineNum.toNat = ((splitOnSeq ['\n'] code).get? s.lineNum.toNat).map
        (fun l => l ++ markersAt unused s.lineNum.toNat)) ∧
    (∀ s ∈ imps, s.lineNum ∉ unused.map (fun u => u.lineNum) →
      (withMarkers unused (splitOnSeq ['\n'] code) 0).get? s.lineNum.toNat =
        (splitOnSeq ['\n'] code).get? s.lineNum.toNat) := by
  refine ⟨toggle_diag hfu hgf h1 hr1 hnd hcl h2 hr2, ?_, ?_⟩
  · intro s _
    rw [withMarkers_get?, Nat.zero_add]
  · intro s hs hnm
    rw [withMarkers_get?, Nat.zero_add]
    have hge := (hr1 s hs).1
    have hnil : markersAt unused s.lineNum.toNat = [] :=
      markersAt_nil_of_not_mem (by rw [Int.toNat_of_nonneg hge]; exact hnm)
    rw [hnil]
    cases (splitOnSeq ['\n'] code).get? s.lineNum.toNat with
    | none => rfl
    | some l0 => simp

/-- Concrete program of the C3 witness: one unresolved import and one
variable that is unused once the import is neutralized. -/
def c3Code : List Char :=
  "package main\n\nimport \"nosuch\"\n\nfunc main() \x7b\n\tnotUsed := 1\n\x7d".data

/-- Concrete buffer of the C3 witness after the comment phase. -/
def c3Commented : List Char :=
  "package main\n\n// import \"nosuch\"\n\nfunc main() \x7b\n\tnotUsed := 1\n\x7d".data

/-- Build oracle of the C3 witness: the raw input fails with the missing
provider, the commented buffer fails with the unused variable. -/
def c3Build : List Char → Option (List Char) := fun c =>
  if c = c3Code then
    some "./x.go:3:8: no required module provides package nosuch".data
  else if c = c3Commented then
    some "./x.go:6:2: declared and not used: notUsed".data
  else none

/-- C3 witness: on the concrete scenario the toggle output is the input
with only the marker appended, and the commented import line (index 2)
is restored byte-identical. -/
theorem C3_import_neutralization_witness :
    toggle c3Build false c3Code = Except.ok (joinWith ['\n']
      (withMarkers [SymbolInfo.mk " notUsed".data 5]
        (splitOnSeq ['\n'] c3Code) 0)) ∧
    (withMarkers [SymbolInfo.mk " notUsed".data 5]
      (splitOnSeq ['\n'] c3Code) 0).get? 2 =
      (splitOnSeq ['\n'] c3Code).get? 2 := by
  have h := @C3_import_neutralization c3Build c3Code
    [SymbolInfo.mk " nosuch".data 2] [SymbolInfo.mk " notUsed".data 5]
    (splitOnSeq ['\n'] c3Commented)
    rfl rfl rfl (by decide) (by decide) rfl rfl (by decide)
    (by decide) (by decide)
  exact ⟨h.1, h.2.2 (SymbolInfo.mk " nosuch".data 2)
    (List.mem_singleton.mpr rfl) (by decide)⟩

/-- Concrete program of the C1 counterexample: marker-free, the build
reports an unused symbol, but one line already contains the fake-usage
separator text. -/
def c1Code : List Char :=
  "package main\n\nfunc main() \x7b\n\ty := 1\n\tx := 1; _ = y\n\x7d".data

/-- Build oracle of the C1 counterexample. -/
def c1Build : List Char → Option (List Char) := fun c =>
  if c = c1Code then
    some "# command-line-arguments\n./x.go:5:2: declared and not used: x".data
  else none

/-- Buffer produced by the first toggle call of the C1 counterexample. -/
def c1Toggled : List Char :=
  "package main\n\nfunc main() \x7b\n\ty := 1\n\tx := 1; _ = y; _ = x /* TODO: gouse */\n\x7d".data

/-- Buffer produced by the second toggle call of the C1 counterexample:
the greedy strip also removes the pre-existing text from the first
occurrence of the separator onwards. -/
def c1Stripped : List Char :=
  "package main\n\nfunc main() \x7b\n\ty := 1\n\tx := 1\n\x7d".data

/-- C1 (counterexample): an input with no marker in either surface form
whose build reports an unused-symbol diagnostic, for which applying
toggle twice does not return the input: the second pass strips from the
first occurrence of the separator text already present in the input. -/
theorem C1_round_trip_counterexample :
    matchesAnywhere fuMatchLen c1Code = false ∧
    matchesAnywhere gfMatchLen c1Code = false ∧
    getSymbolsInfoFromBuildErrors c1Build false c1Code
      notUsedErrorRegexpSuffix = Except.ok [SymbolInfo.mk " x".data 4] ∧
    toggle c1Build false c1Code = Except.ok c1Toggled ∧
    toggle c1Build false c1Toggled = Except.ok c1Stripped ∧
    c1Stripped ≠ c1Code :=
  ⟨rfl, rfl, rfl, rfl, rfl, by decide⟩

/-- C1 (amended): toggle of toggle is the identity on any input that
contains no marker in either surface form, contains no occurrence of the
fake-usage separator at all, and whose build reports at least one
unused-symbol diagnostic (on real, pairwise distinct lines): the first
call only appends markers, and the second call short-circuits in the
marker recognizer and strips exactly them, for every build oracle and
cancellation state of the second call. -/
theorem C1_round_trip_amended {build : List Char → Option (List Char)}
    {code : List Char} {imps unused : List SymbolInfo}
    {clines : List (List Char)}
    (hfu : matchesAnywhere fuMatchLen code = false)
    (hgf : matchesAnywhere gfMatchLen code = false)
    (hsep : ¬ fakeUsagePrefix <:+: code)
    (h1 : getSymbolsInfoFromBuildErrors build false code
      noProviderErrorRegexpSuffix = Except.ok imps)
    (hr1 : ∀ s ∈ imps, 0 ≤ s.lineNum ∧
      s.lineNum.toNat < (splitOnSeq ['\n'] code).length)
    (hnd : (imps.map (fun s => s.lineNum)).Nodup)
    (hcl : commentFold (splitOnSeq ['\n'] code) imps = Except.ok clines)
    (h2 : getSymbolsInfoFromBuildErrors build false (joinWith ['\n'] clines)
      notUsedErrorRegexpSuffix = Except.ok unused)
    (hr2 : ∀ s ∈ unused, 0 ≤ s.lineNum ∧
      s.lineNum.toNat < (splitOnSeq ['\n'] code).length)
    (hne : unused ≠ []) :
    toggle build false code = Except.ok
      (joinWith ['\n'] (withMarkers unused (splitOnSeq ['\n'] code) 0)) ∧
    ∀ (build2 : List Char → Option (List Char)) (c2 : Bool),
      toggle build2 c2
        (joinWith ['\n'] (withMarkers unused (splitOnSeq ['\n'] code) 0)) =
        Except.ok code := by
  refine ⟨toggle_diag hfu hgf h1 hr1 hnd hcl h2 hr2, ?_⟩
  intro build2 c2
  have hnames : ∀ s ∈ unused, '\n' ∉ s.name :=
    getSymbols_names (by decide) h2
  have hinside : ∀ l ∈ splitOnSeq ['\n'] code, ¬ fakeUsagePrefix <:+: l := by
    intro l hl hinf
    exact hsep (hinf.trans (splitOnSeq_mem_within (by simp) hl))
  obtain ⟨s, hs⟩ := List.exists_mem_of_ne_nil unused hne
  obtain ⟨hge, hlt⟩ := hr2 s hs
  obtain ⟨l0, hq⟩ := get?_isSome_of_lt hlt
  have hmne := markersAt_ne_nil hs hge
  have hline : (withMarkers unused (splitOnSeq ['\n'] code) 0).get?
      s.lineNum.toNat = some (l0 ++ markersAt unused s.lineNum.toNat) := by
    rw [withMarkers_get?, Nat.zero_add, hq]
    rfl
  have hmem := List.get?_mem hline
  have hmc := markerConcat_markersAt hnames s.lineNum.toNat
  have hlm := (strip_line (hinside l0 (List.get?_mem hq)) hmc).2 hmne
  have hmatch := matches_join_mem hmem hlm
  rw [toggle_strip_fu hmatch build2 c2]
  rw [strip_withMarkers unused hnames _ 0 hinside]
  rw [joinWith_splitOnSeq (by simp) code]

/-- Concrete program of the C1 witness. -/
def c1wCode : List Char :=
  "package main\n\nfunc main() \x7b\n\tnotUsed := true\n\x7d".data

/-- Build oracle of the C1 witness. -/
def c1wBuild : List Char → Option (List Char) := fun c =>
  if c = c1wCode then
    some "# command-line-arguments\n./x.go:4:2: declared and not used: notUsed".data
  else none

/-- Marked buffer of the C1 witness. -/
def c1wT1 : List Char :=
  joinWith ['\n'] (withMarkers [SymbolInfo.mk " notUsed".data 3]
    (splitOnSeq ['\n'] c1wCode) 0)

/-- C1 witness: the concrete round trip through two toggle calls. -/
theorem C1_round_trip_amended_witness :
    toggle c1wBuild false c1wCode = Except.ok c1wT1 ∧
    toggle c1wBuild false c1wT1 = Except.ok c1wCode := by
  have h := @C1_round_trip_amended c1wBuild c1wCode []
    [SymbolInfo.mk " notUsed".data 3] (splitOnSeq ['\n'] c1wCode)
    rfl rfl (by decide) rfl (by decide) (by decide) rfl rfl (by decide)
    (by decide)
  exact ⟨h.1, h.2 c1wBuild false⟩
